import Mathlib

/-!
# Verification of the mailbox-MPC threshold-custody node

A shallow embedding, in Lean 4, of the cryptographic core of the
mailbox-MPC node (`src/node/app/`): compressed-point serialization
(`crypto.py`), the Feldman-VSS DKG engine and threshold-Schnorr signer
engine (`crypto.py`), the HSM nonce-derivation subsystem (`hardware.py`),
the persistent node-state store (`state.py`) and the triple-layer
nonce-reuse guard of `sign-approve` (`main.py`).

Conventions of the embedding:
* Python `int` arithmetic mod the curve order is `ZMod q`; machine-width
  concerns are modelled explicitly where they matter (the 8-byte counter).
* Python dicts are association lists with `alookup` / `dictInsert`
  (insertion replaces an existing binding, else appends).
* Python exceptions are `Option`: `none` is "the call raised".
* The secp256k1 group itself is abstract: the signer/DKG engines are
  stated over an additive commutative group `Pt` with a `ZMod q`-action,
  a generator `G`, an abstract point serializer `ser` (`point_to_hex`)
  and hash `Hash` (SHA-256 of the ASCII challenge preimage, reduced mod
  the order).  Compressed-point serialization itself is modelled
  concretely over the secp256k1 coordinate field.
-/

namespace MailboxMPC

/-! ## Hex-string primitives

Models of the Python string operations used by `crypto.py`:
`int(s, 16)`, `format(x, '064x')`, `format(x, 'x')` and `bytes.hex()`.
-/

/-- Value of one hex digit, as accepted by Python's `int(s, 16)`
(digits, lowercase and uppercase letters). -/
def hexDigitVal? (c : Char) : Option ℕ :=
  if '0' ≤ c ∧ c ≤ '9' then some (c.toNat - '0'.toNat)
  else if 'a' ≤ c ∧ c ≤ 'f' then some (c.toNat - 'a'.toNat + 10)
  else if 'A' ≤ c ∧ c ≤ 'F' then some (c.toNat - 'A'.toNat + 10)
  else none

/-- The canonical lowercase hex digit for a value `n < 16`
(what Python's `'x'` format emits). -/
def hexDigitChar (n : ℕ) : Char :=
  if n < 10 then Char.ofNat ('0'.toNat + n) else Char.ofNat ('a'.toNat + n - 10)

/-- The sixteen canonical lowercase hex digits. -/
def lowerHexDigits : List Char :=
  (List.range 16).map hexDigitChar

/-- Accumulating hex parser: `parseHexAux l acc` extends the accumulator
`acc` with the digits of `l`, failing on a non-digit. -/
def parseHexAux : List Char → ℕ → Option ℕ
  | [], acc => some acc
  | c :: rest, acc =>
    match hexDigitVal? c with
    | none => none
    | some d => parseHexAux rest (16 * acc + d)

/-- Model of Python `int(s, 16)` on the character list `l`: fails on the
empty string and on any non-hex-digit character.  (Python additionally
tolerates surrounding whitespace, a sign and `_` separators; no encoding
handled by the node uses those forms, so they are outside this model.) -/
def parseHexList? (l : List Char) : Option ℕ :=
  if l = [] then none else parseHexAux l 0

/-- Fixed-width big-endian lowercase hex rendering: `natToHexW w n` is the
`w` least-significant hex digits of `n`, most significant first.  For
`n < 16 ^ w` this is exactly Python's `format(n, '0{w}x')`. -/
def natToHexW : ℕ → ℕ → List Char
  | 0, _ => []
  | w + 1, n => natToHexW w (n / 16) ++ [hexDigitChar (n % 16)]

/-- Model of Python `format(n, 'x')` (minimal-width lowercase hex) for
`n < 16 ^ 64`, which covers every scalar the node formats this way:
strip the leading zeros of the 64-digit rendering. -/
def natToHexMin (n : ℕ) : List Char :=
  if n = 0 then ['0'] else (natToHexW 64 n).dropWhile (fun c => c = '0')

/-- Model of Python `bytes.hex()`: two lowercase digits per byte. -/
def bytesToHex (l : List ℕ) : List Char :=
  l.flatMap fun b => [hexDigitChar (b / 16 % 16), hexDigitChar (b % 16)]

/-! ## Concrete secp256k1 compressed-point serialization (`crypto.py`)

`point_to_hex` / `hex_to_point` are modelled concretely over the
secp256k1 coordinate prime `secp_p`.  fastecdsa's curve parameters are
`a = 0`, `b = 7`; its `Point(x, y, curve)` constructor raises unless the
curve equation `y² ≡ x³ + a·x + b (mod p)` holds, and its identity
sentinel carries coordinates `(0, 0)`.
-/

/-- The secp256k1 coordinate field prime (`CURVE.p`). -/
def secp_p : ℕ :=
  0xFFFFFFFFFFFFFFFFFFFFFFFFFFFFFFFFFFFFFFFFFFFFFFFFFFFFFFFEFFFFFC2F

/-- The secp256k1 group order (`ORDER` in `crypto.py`,
`CURVE_ORDER` in `hardware.py`). -/
def secp_n : ℕ :=
  0xFFFFFFFFFFFFFFFFFFFFFFFFFFFFFFFEBAAEDCE6AF48A03BBFD25E8CD0364141

/-- A fastecdsa point value: a raw coordinate pair.  The identity
sentinel is `(0, 0)`. -/
structure CPoint where
  x : ℕ
  y : ℕ
  deriving DecidableEq

/-- The fastecdsa identity element (`IDENTITY = G + (-G)`), which carries
coordinates `(0, 0)`. -/
def cIdentity : CPoint := ⟨0, 0⟩

/-- `is_identity` from `crypto.py`: both coordinates are zero. -/
def is_identity (pt : CPoint) : Prop := pt.x = 0 ∧ pt.y = 0

instance : DecidablePred is_identity := fun pt =>
  inferInstanceAs (Decidable (pt.x = 0 ∧ pt.y = 0))

/-- Fuel-driven modular exponentiation.  `powModAux m fuel b e` is
`b ^ e % m` whenever `e < 2 ^ fuel` and `m > 0` (binary
square-and-multiply, so 257 units of fuel cover every exponent used by
the node). -/
def powModAux (m : ℕ) : ℕ → ℕ → ℕ → ℕ
  | 0, _, _ => 1 % m
  | fuel + 1, b, e =>
    if e = 0 then 1 % m
    else
      let r := powModAux m fuel (b * b % m) (e / 2)
      if e % 2 = 1 then r * (b % m) % m else r

/-- Model of Python `pow(b, e, m)` for the exponents arising here
(all below `2 ^ 257`). -/
def powMod (b e m : ℕ) : ℕ := powModAux m 257 (b % m) e

/-- `y_squared` in `hex_to_point`: `(pow(x, 3, p) + a*x + b) % p` with
`a = 0`, `b = 7`. -/
def ySquared (x : ℕ) : ℕ := (powMod x 3 secp_p + 0 * x + 7) % secp_p

/-- The square-root candidate `pow(y_squared, (p + 1) // 4, p)`
computed by `hex_to_point`. -/
def sqrtCand (x : ℕ) : ℕ := powMod (ySquared x) ((secp_p + 1) / 4) secp_p

/-- fastecdsa's on-curve test for secp256k1, performed by the `Point`
constructor: `y² ≡ x³ + a·x + b (mod p)` with `a = 0`, `b = 7`. -/
def onCurve (x y : ℕ) : Prop := y * y % secp_p = (x * x * x + 0 * x + 7) % secp_p

instance : ∀ x y, Decidable (onCurve x y) := fun x y =>
  inferInstanceAs (Decidable (_ = _))

/-- `point_to_hex` from `crypto.py`: `"00"` for the identity, else a
parity prefix `"02"`/`"03"` followed by `format(x, '064x')`.  (Every
serialized coordinate is `< secp_p < 16 ^ 64`, where the fixed-width
rendering agrees with Python's format.) -/
def point_to_hex (pt : CPoint) : String :=
  if is_identity pt then "00"
  else
    (if pt.y % 2 = 0 then "02" else "03") ++ String.mk (natToHexW 64 pt.x)

/-- `hex_to_point` from `crypto.py`.  `"00"` maps to the identity;
otherwise the characters after the first two are parsed as hex
(`int(h[2:], 16)`, raising on failure), a square-root candidate for
`x³ + 7` is computed, its sign is flipped when the parity disagrees with
a `"02"`/`"03"` leading pair, and the `Point` constructor's on-curve
check decides success.  Note that the source performs no length check,
no membership check on the leading two characters, and no `x < p` check. -/
def hex_to_point (h : String) : Option CPoint :=
  if h = "00" then some cIdentity
  else
    match parseHexList? (h.data.drop 2) with
    | none => none
    | some x =>
      let pfx := h.data.take 2
      let y0 := sqrtCand x
      let y :=
        if (pfx = ['0', '2'] ∧ ¬ y0 % 2 = 0) ∨ (pfx = ['0', '3'] ∧ y0 % 2 = 0) then
          secp_p - y0
        else y0
      if onCurve x y then some ⟨x, y⟩ else none

/-- Claim-side notion of a well-formed compressed encoding (spec §3, §4.1,
§6): the identity encoding `"00"`, or a 66-character string whose leading
pair is `"02"` or `"03"`, whose remaining 64 characters are lowercase hex
digits, whose coordinate is below the field prime, and for which the
square-root candidate computed in deserialization satisfies the curve
equation (for the secp256k1 prime, which is `3 mod 4`, exactly the
encodings whose `x³ + 7` has a square root). -/
def WellFormedHex (h : String) : Prop :=
  h = "00" ∨
    (h.data.length = 66 ∧
      (h.data.take 2 = ['0', '2'] ∨ h.data.take 2 = ['0', '3']) ∧
      (∀ c ∈ h.data.drop 2, c ∈ lowerHexDigits) ∧
      (∃ x, parseHexList? (h.data.drop 2) = some x ∧ x < secp_p ∧
        onCurve x (sqrtCand x)))

/-! ## Python dict primitives

`crypto.py` and `state.py` keep string-keyed dicts.  An association
list with replace-or-append insertion has the same lookup semantics.
-/

/-- Dict lookup (`d[k]` / `k in d`); `none` models `KeyError`/absence. -/
def alookup {β : Type} : List (String × β) → String → Option β
  | [], _ => none
  | kv :: rest, k => if kv.1 = k then some kv.2 else alookup rest k

/-- Dict assignment `d[k] = v`: replace the binding in place when the key
is present, else append it (Python dicts preserve insertion order). -/
def dictInsert {β : Type} : List (String × β) → String → β → List (String × β)
  | [], k, v => [(k, v)]
  | kv :: rest, k, v =>
    if kv.1 = k then (k, v) :: rest else kv :: dictInsert rest k v

/-! ## Node indices

`crypto.py` derives a node's integer index as
`int(node_id.replace("node", ""))`.
-/

/-- Python's `str.replace("node", "")`: drop every non-overlapping
occurrence of `"node"`, scanning left to right. -/
def stripNode : List Char → List Char
  | [] => []
  | 'n' :: 'o' :: 'd' :: 'e' :: rest => stripNode rest
  | c :: rest => c :: stripNode rest

/-- One decimal digit, as accepted by Python's `int(s)`. -/
def decDigitVal? (c : Char) : Option ℕ :=
  if '0' ≤ c ∧ c ≤ '9' then some (c.toNat - '0'.toNat) else none

/-- Accumulating decimal parser. -/
def parseDecAux : List Char → ℕ → Option ℕ
  | [], acc => some acc
  | c :: rest, acc =>
    match decDigitVal? c with
    | none => none
    | some d => parseDecAux rest (10 * acc + d)

/-- Model of Python `int(s)` on nonnegative decimal strings: fails on the
empty string and on any non-digit.  (The tolerated sign/whitespace/`_`
forms never occur in node identifiers.) -/
def parseDec? (l : List Char) : Option ℕ :=
  if l = [] then none else parseDecAux l 0

/-- `int(node_id.replace("node", ""))`, the node-index derivation used by
`FeldmanDKG.__init__`, `ThresholdSigner.__init__` and
`compute_partial_signature`; `none` models the `ValueError` raised on a
malformed identifier. -/
def nodeIndex? (s : String) : Option ℕ := parseDec? (stripNode s.data)

/-! ## Signer engine (`crypto.py`, `ThresholdSigner` / `SigningRound`)

The secp256k1 group is abstracted to an additive commutative group `Pt`
with a `ZMod q` action (`q` the group order), generator `G`, point
serializer `ser` (`point_to_hex`), deserializer `deser` (`hex_to_point`
on valid encodings) and challenge hash
`Hash s m = SHA256(s.encode() + bytes(m)) mod q`.
-/

/-- State for one signing ceremony (`SigningRound` in `crypto.py`). -/
structure SigningRound (q : ℕ) (Pt : Type) where
  request_id : String
  message_hash : List ℕ
  my_nonce_k : Option (ZMod q)
  nonce_commitments : List (String × Pt)
  partial_signatures : List (String × ZMod q)
  deriving DecidableEq

/-- Signer engine state (`ThresholdSigner` in `crypto.py`). -/
structure ThresholdSigner (q : ℕ) (Pt : Type) where
  node_id : String
  my_index : ℕ
  my_share : ZMod q
  group_pubkey : Pt
  sessions : List (String × SigningRound q Pt)
  deriving DecidableEq

/-- `ThresholdSigner.__init__`: the index is parsed from the node id;
`none` models the `ValueError` on a malformed id. -/
def mkThresholdSigner? {q : ℕ} {Pt : Type} (node_id : String) (my_share : ZMod q)
    (group_pubkey : Pt) : Option (ThresholdSigner q Pt) :=
  (nodeIndex? node_id).map fun i =>
    { node_id := node_id, my_index := i, my_share := my_share,
      group_pubkey := group_pubkey, sessions := [] }

/-- `format(z, '064x')` on a scalar (used for partial signatures and the
combined `s`); every such scalar is `< q < 16 ^ 64` on the real curve. -/
def scalarHex {q : ℕ} (z : ZMod q) : String := String.mk (natToHexW 64 z.val)

/-- `ThresholdSigner.create_nonce_commitment_from_k`: open the session for
`request_id` with the externally derived nonce `k` and own commitment
`hex_to_point(R_hex)`; the source also returns `R_hex` unchanged. -/
def create_nonce_commitment_from_k {q : ℕ} {Pt : Type} (deser : String → Pt)
    (signer : ThresholdSigner q Pt) (request_id : String) (message_hash : List ℕ)
    (k : ZMod q) (R_hex : String) : ThresholdSigner q Pt :=
  { signer with
      sessions := dictInsert signer.sessions request_id
        { request_id := request_id, message_hash := message_hash,
          my_nonce_k := some k,
          nonce_commitments := [(signer.node_id, deser R_hex)],
          partial_signatures := [] } }

/-- `ThresholdSigner.receive_nonce_commitment`; `none` models the
`KeyError` on a missing session. -/
def receive_nonce_commitment {q : ℕ} {Pt : Type} (deser : String → Pt)
    (signer : ThresholdSigner q Pt) (request_id from_node R_hex : String) :
    Option (ThresholdSigner q Pt) :=
  match alookup signer.sessions request_id with
  | none => none
  | some session =>
    some { signer with
      sessions := dictInsert signer.sessions request_id
        { session with
            nonce_commitments :=
              dictInsert session.nonce_commitments from_node (deser R_hex) } }

/-- The aggregate-nonce loop shared by `compute_partial_signature` and
`combine_signatures`: `R = IDENTITY; for node_id in participants:
R = R + commitments[node_id]`; `none` models the `KeyError` on a missing
participant commitment. -/
def sumCommitments {Pt : Type} [AddCommGroup Pt] (ncs : List (String × Pt))
    (participants : List String) : Option Pt :=
  participants.foldl
    (fun acc nid =>
      match acc, alookup ncs nid with
      | some R, some Rj => some (R + Rj)
      | _, _ => none)
    (some 0)

/-- Numerator loop of the Lagrange coefficient in
`compute_partial_signature`: `num = (num * (-j)) % ORDER` over the
participant indices other than one's own (the guard `j != my_index`
compares Python ints). -/
def lagrangeNum (q : ℕ) (myIndex : ℕ) (indices : List ℕ) : ZMod q :=
  indices.foldl (fun acc j => if j ≠ myIndex then acc * (-(j : ZMod q)) else acc) 1

/-- Denominator loop of the Lagrange coefficient:
`den = (den * (my_index - j)) % ORDER`. -/
def lagrangeDen (q : ℕ) (myIndex : ℕ) (indices : List ℕ) : ZMod q :=
  indices.foldl
    (fun acc j => if j ≠ myIndex then acc * ((myIndex : ZMod q) - (j : ZMod q)) else acc) 1

/-- `mod_inverse(a, ORDER)`, i.e. Python `pow(a, -1, ORDER)`: fails
(`ValueError`) exactly when `gcd(a, ORDER) ≠ 1`; for the prime order used
by the node that means `a ≡ 0`. -/
def mod_inverse? {q : ℕ} (a : ZMod q) : Option (ZMod q) :=
  if Nat.gcd (ZMod.val a) q = 1 then some a⁻¹ else none

/-- `ThresholdSigner.compute_partial_signature`.  Aggregates
`R = Σ R_j` over `participants` from the session's commitment dict,
derives the challenge `e` from the ASCII concatenation of the hex
encodings of `R` and the group key followed by the message hash, computes
the Lagrange coefficient by the two product loops, emits
`s_i = k + e·λ_i·x_i`, wipes the nonce (`session.my_nonce_k = None`) and
records own partial.  `none` collapses the source's `KeyError` (missing
session / commitment), `ValueError` (index parse, non-invertible
denominator) and `TypeError` (absent nonce). -/
def compute_partial_signature {q : ℕ} {Pt : Type} [AddCommGroup Pt]
    [Module (ZMod q) Pt] (ser : Pt → String) (Hash : String → List ℕ → ZMod q)
    (signer : ThresholdSigner q Pt) (request_id : String)
    (participants : List String) : Option (String × ThresholdSigner q Pt) :=
  match alookup signer.sessions request_id with
  | none => none
  | some session =>
    match sumCommitments session.nonce_commitments participants with
    | none => none
    | some R =>
      let e := Hash (ser R ++ ser signer.group_pubkey) session.message_hash
      match participants.mapM nodeIndex? with
      | none => none
      | some participant_indices =>
        let num := lagrangeNum q signer.my_index participant_indices
        let den := lagrangeDen q signer.my_index participant_indices
        match mod_inverse? den, session.my_nonce_k with
        | some dinv, some k =>
          let lam := num * dinv
          let s_i := k + e * lam * signer.my_share
          let session2 :=
            { session with
                my_nonce_k := none,
                partial_signatures :=
                  dictInsert session.partial_signatures signer.node_id s_i }
          some (scalarHex s_i,
            { signer with sessions := dictInsert signer.sessions request_id session2 })
        | _, _ => none

/-- `ThresholdSigner.combine_signatures`: `R = Σ_{j ∈ participants} R_j`
(a `KeyError`, modelled `none`, if a participant has no commitment) and
`s = sum(partials.values()) % ORDER` — the sum runs over every entry of
the partials dict, and no check relates it to `participants`. -/
def combine_signatures {q : ℕ} {Pt : Type} [AddCommGroup Pt] (ser : Pt → String)
    (partials : List (String × ZMod q)) (nonce_commitments : List (String × Pt))
    (participants : List String) : Option (String × String) :=
  match sumCommitments nonce_commitments participants with
  | none => none
  | some R => some (ser R, scalarHex ((partials.map Prod.snd).sum))

/-- `ThresholdSigner.verify_signature`: parse `s`, recompute the
challenge from the ASCII preimage `R_hex + P_hex` followed by the raw
message hash, and test `s·G == R + e·P`.  `none` models the parse
failure on a malformed `s_hex`. -/
def verify_signature {q : ℕ} {Pt : Type} [AddCommGroup Pt] [Module (ZMod q) Pt]
    [DecidableEq Pt] (G : Pt) (ser : Pt → String) (deser : String → Pt)
    (Hash : String → List ℕ → ZMod q) (R_hex s_hex : String) (pubkey : Pt)
    (message_hash : List ℕ) : Option Bool :=
  match parseHexList? s_hex.data with
  | none => none
  | some s =>
    let R := deser R_hex
    let e := Hash (R_hex ++ ser pubkey) message_hash
    some (decide (s • G = R + e • pubkey))

/-! ## DKG engine (`crypto.py`, `FeldmanDKG` / `DKGRound`) -/

/-- State for one DKG ceremony (`DKGRound` in `crypto.py`). -/
structure DKGRound (q : ℕ) (Pt : Type) where
  round_id : String
  node_id : String
  my_index : ℕ
  threshold : ℕ
  total_nodes : ℕ
  my_coefficients : Option (List (ZMod q))
  my_commitments : Option (List Pt)
  shares_for_others : List (String × ZMod q)
  received_shares : List (String × ZMod q)
  other_commitments : List (String × List Pt)
  deriving DecidableEq

/-- The polynomial-evaluation loop of `compute_share_for` and
`finalize`: `result = (result + coeff * pow(i, k, ORDER)) % ORDER` over
the enumerated coefficients, with the power index starting at `kpow`. -/
def evalShareFrom {q : ℕ} (idx : ℕ) : List (ZMod q) → ℕ → ZMod q → ZMod q
  | [], _, acc => acc
  | c :: rest, kpow, acc => evalShareFrom idx rest (kpow + 1) (acc + c * (idx : ZMod q) ^ kpow)

/-- `Σ_{k} a_k · i^k mod ORDER`: the body of `compute_share_for`
evaluated at index `idx`. -/
def evalShareAcc {q : ℕ} (coeffs : List (ZMod q)) (idx : ℕ) : ZMod q :=
  evalShareFrom idx coeffs 0 0

/-- `FeldmanDKG.compute_share_for(target_node_id)`: parse the target
index, then evaluate the own polynomial there. -/
def compute_share_for {q : ℕ} (coeffs : List (ZMod q)) (target_node_id : String) :
    Option (ZMod q) :=
  (nodeIndex? target_node_id).map (evalShareAcc coeffs)

/-- The verification sum of `receive_share`:
`right = IDENTITY; for k, C_k: right = right + pow(my_index, k, ORDER) * C_k`,
with the power index starting at `kpow`. -/
def feldmanRhsFrom (q : ℕ) {Pt : Type} [AddCommGroup Pt] [Module (ZMod q) Pt]
    (myIdx : ℕ) : List Pt → ℕ → Pt → Pt
  | [], _, acc => acc
  | C :: rest, kpow, acc =>
    feldmanRhsFrom q myIdx rest (kpow + 1) (acc + ((myIdx : ZMod q) ^ kpow) • C)

/-- `Σ_k my_index^k · C_k`, the right-hand side of the Feldman check. -/
def feldmanRhs (q : ℕ) {Pt : Type} [AddCommGroup Pt] [Module (ZMod q) Pt]
    (myIdx : ℕ) (commitments : List Pt) : Pt :=
  feldmanRhsFrom q myIdx commitments 0 0

/-- `FeldmanDKG.receive_share`: returns `False` (state unchanged) when no
commitments were received from the sender or when
`share · G ≠ Σ_k my_index^k · C_k`; otherwise stores the share and
returns `True`. -/
def receive_share {q : ℕ} {Pt : Type} [AddCommGroup Pt] [Module (ZMod q) Pt]
    [DecidableEq Pt] (G : Pt) (st : DKGRound q Pt) (from_node : String)
    (share_value : ZMod q) : Bool × DKGRound q Pt :=
  match alookup st.other_commitments from_node with
  | none => (false, st)
  | some commitments =>
    let left := share_value • G
    let right := feldmanRhs q st.my_index commitments
    if ¬ left = right then (false, st)
    else
      (true,
        { st with
            received_shares := dictInsert st.received_shares from_node share_value })

/-- `FeldmanDKG.finalize`: own contribution to the own share plus all
received shares, and the group key as the sum over every participant of
their `C₀`.  `none` models the attribute/`IndexError` failures when the
coefficients or a commitment list are absent or empty. -/
def dkgFinalize {q : ℕ} {Pt : Type} [AddCommGroup Pt] [Module (ZMod q) Pt]
    (st : DKGRound q Pt) : Option (ZMod q × Pt) :=
  match st.my_coefficients, st.my_commitments with
  | some coeffs, some (c0 :: _) =>
    let my_own_share := evalShareAcc coeffs st.my_index
    let final_share := st.received_shares.foldl (fun acc kv => acc + kv.2) my_own_share
    match st.other_commitments.mapM (fun kv => kv.2.head?) with
    | none => none
    | some heads => some (final_share, heads.foldl (· + ·) c0)
  | _, _ => none

/-! ## The honest signing pipeline (`main.py` `sign-approve`/`sign-finalize`)

For the threshold-correctness claim we compose the engine calls exactly
as the orchestrator does for an honest run: every dealer's polynomial is
a coefficient list, each participant's share is the sum of all dealers'
`compute_share_for` evaluations at its index (what `dkg-finalize`
stores), the group key is the sum of the dealers' first commitments, and
each participant of the locked set `S` runs approve (session creation
from the derived nonce) and finalize (commitment intake, partial
computation); the partial hex strings are posted, re-parsed and combined.
-/

/-- The final share each participant obtains from a full honest DKG: the
sum over all dealers of their polynomial evaluated at `idx`
(`finalize`'s `my_own_share` plus the received shares). -/
def dkgFinalShare {q : ℕ} (dealers : List (List (ZMod q))) (idx : ℕ) : ZMod q :=
  (dealers.map fun c => evalShareAcc c idx).sum

/-- The group public key of a full honest DKG: `Σ_d C_{d,0}`, i.e. the
sum of the dealers' constant coefficients times `G`. -/
def dkgGroupPk {q : ℕ} {Pt : Type} [AddCommGroup Pt] [Module (ZMod q) Pt]
    (G : Pt) (dealers : List (List (ZMod q))) : Pt :=
  ((dealers.map fun c => c.headD 0).sum) • G

/-- One honest participant `nid` of the locked set `S` runs the
`sign-approve` session setup (share from the DKG, session opened with the
HSM-derived nonce `k nid` and posted commitment `ser (k nid • G)`)
followed by the `sign-finalize` commitment intake over `S` and
`compute_partial_signature`. -/
def participantPartial {q : ℕ} {Pt : Type} [AddCommGroup Pt] [Module (ZMod q) Pt]
    (G : Pt) (ser : Pt → String) (deser : String → Pt)
    (Hash : String → List ℕ → ZMod q) (dealers : List (List (ZMod q)))
    (S : List String) (req : String) (msg : List ℕ) (k : String → ZMod q)
    (nid : String) : Option (String × ThresholdSigner q Pt) :=
  match nodeIndex? nid with
  | none => none
  | some idx =>
    let signer0 : ThresholdSigner q Pt :=
      { node_id := nid, my_index := idx, my_share := dkgFinalShare dealers idx,
        group_pubkey := dkgGroupPk G dealers, sessions := [] }
    let signer1 :=
      create_nonce_commitment_from_k deser signer0 req msg (k nid) (ser (k nid • G))
    match
      S.foldl
        (fun acc n =>
          acc.bind fun sg => receive_nonce_commitment deser sg req n (ser (k n • G)))
        (some signer1)
    with
    | none => none
    | some signer2 => compute_partial_signature ser Hash signer2 req S

/-- The full honest run: every participant of `S` produces its partial,
the hex partials are parsed back (as `sign-finalize` does when loading
them from the board) and combined against the intaken commitment map. -/
def honestSignRun {q : ℕ} {Pt : Type} [AddCommGroup Pt] [Module (ZMod q) Pt]
    (G : Pt) (ser : Pt → String) (deser : String → Pt)
    (Hash : String → List ℕ → ZMod q) (dealers : List (List (ZMod q)))
    (S : List String) (req : String) (msg : List ℕ) (k : String → ZMod q) :
    Option (String × String) :=
  match
    S.mapM fun nid =>
      (participantPartial G ser deser Hash dealers S req msg k nid).bind fun p =>
        (parseHexList? p.1.data).map fun v => (nid, ((v : ℕ) : ZMod q))
  with
  | none => none
  | some partials =>
    combine_signatures ser partials
      (S.map fun nid => (nid, deser (ser (k nid • G)))) S

/-! ## Persisted signer-session document (`SigningRound.to_dict`,
`ThresholdSigner.to_json`, `main.py` `sign-approve` step 8) -/

/-- The JSON-safe dictionary produced by `SigningRound.to_dict`. -/
structure SigningRoundDict where
  request_id : String
  message_hash : String
  my_nonce_k : Option String
  nonce_commitments : List (String × String)
  partial_signatures : List (String × String)
  deriving DecidableEq

/-- `SigningRound.to_dict`: note that `my_nonce_k` is serialized as
`format(k, 'x')` whenever the nonce is present. -/
def SigningRound.to_dict {q : ℕ} {Pt : Type} (ser : Pt → String)
    (s : SigningRound q Pt) : SigningRoundDict :=
  { request_id := s.request_id
    message_hash := String.mk (bytesToHex s.message_hash)
    my_nonce_k := s.my_nonce_k.map fun k => String.mk (natToHexMin k.val)
    nonce_commitments := s.nonce_commitments.map fun kv => (kv.1, ser kv.2)
    partial_signatures := s.partial_signatures.map fun kv =>
      (kv.1, String.mk (natToHexMin kv.2.val)) }

/-- The session document that `sign-approve` writes to
`signer_<request_id>.json`: the signer is constructed, the session opened
from the HSM derivation, and `signer.to_json()` (which serializes each
session via `to_dict`) is persisted — with no nonce wipe in between. -/
def approvePersistedSession {q : ℕ} {Pt : Type} (ser : Pt → String)
    (deser : String → Pt) (node_id : String) (share : ZMod q) (pk : Pt)
    (request_id : String) (msg : List ℕ) (k : ZMod q) (R_hex : String) :
    Option SigningRoundDict :=
  (mkThresholdSigner? node_id share pk).bind fun signer0 =>
    let signer1 := create_nonce_commitment_from_k deser signer0 request_id msg k R_hex
    (alookup signer1.sessions request_id).map (SigningRound.to_dict ser)

/-! ## HSM nonce subsystem (`hardware.py`, demo-mode semantics)

The HSM object store is modelled by the fields that the nonce subsystem
reads and writes; PKCS#11 device failures are out of scope (every store
operation succeeds).  `kdf c rid msg` abstracts
`int.from_bytes(HMAC_SHA512(master_seed, 0x00 || c || rid || msg)[:32])`
and `rser k` abstracts `point_to_hex(k * G)`.
-/

/-- `NonceDerivation` dataclass from `hardware.py`. -/
structure NonceDerivationRec where
  counter : ℕ
  k : ℕ
  R_hex : String
  request_id : String
  message_hash_hex : String
  deriving DecidableEq

/-- HSM state touched by the nonce subsystem: master seed presence, the
`NONCE_COUNTER` object, the `NONCE_<request_id>` objects and the
`NONCE_DERIV_<counter>` audit records. -/
structure HsmState where
  seed : Bool
  counter : Option ℕ
  nonceObjs : List (String × String)
  derivRecords : List (ℕ × String × String × String)
  deriving DecidableEq

/-- The fresh token: no seed, no counter object, no records. -/
def hsmInit : HsmState :=
  { seed := false, counter := none, nonceObjs := [], derivRecords := [] }

/-- `initialize_nonce_derivation`: create seed and a counter at 0 if
absent (returns `True`), else a no-op returning `False`. -/
def initialize_nonce_derivation (st : HsmState) : HsmState × Bool :=
  if st.seed then (st, false)
  else ({ st with seed := true, counter := some 0 }, true)

/-- `_increment_nonce_counter`: read the counter object (`none` models
the `get_key` failure when it does not exist), destroy it and recreate it
with value `+1`, returning the post-increment value.  The recreated
object stores `new_value.to_bytes(8, 'big')`, which raises `OverflowError`
at `2 ^ 64`, so the increment fails rather than wrapping. -/
def increment_nonce_counter (st : HsmState) : Option (ℕ × HsmState) :=
  match st.counter with
  | none => none
  | some c =>
    if c + 1 < 2 ^ 64 then some (c + 1, { st with counter := some (c + 1) })
    else none

/-- `store_nonce_commitment`: `SecurityError` (modelled `none`) when a
`NONCE_<request_id>` object already exists, else create it. -/
def store_nonce_commitment (st : HsmState) (request_id commitment_hex : String) :
    Option HsmState :=
  if (alookup st.nonceObjs request_id).isSome then none
  else some { st with nonceObjs := st.nonceObjs ++ [(request_id, commitment_hex)] }

/-- `has_nonce_commitment`. -/
def has_nonce_commitment (st : HsmState) (request_id : String) : Bool :=
  (alookup st.nonceObjs request_id).isSome

/-- `derive_nonce`: fail (`SecurityError`) when the seed is absent;
atomically increment the counter; derive
`k = kdf(counter, request_id, msg) % CURVE_ORDER`, failing when zero;
store the `NONCE_DERIV_<counter>` audit record; return the derivation.
The post-increment counter is the one hashed into the derivation input
and recorded. -/
def derive_nonce (kdf : ℕ → String → List ℕ → ℕ) (rser : ℕ → String)
    (st : HsmState) (request_id : String) (msg : List ℕ) :
    Option (NonceDerivationRec × HsmState) :=
  if ¬ st.seed then none
  else
    match increment_nonce_counter st with
    | none => none
    | some (c, st1) =>
      let k := kdf c request_id msg % secp_n
      if k = 0 then none
      else
        let Rhex := rser k
        some
          ({ counter := c, k := k, R_hex := Rhex, request_id := request_id,
             message_hash_hex := String.mk (bytesToHex msg) },
           { st1 with
               derivRecords :=
                 st1.derivRecords ++ [(c, request_id, Rhex, String.mk (bytesToHex msg))] })

/-- The nonce-subsystem operations available within one HSM lifetime. -/
inductive HsmEvent where
  | initDeriv : HsmEvent
  | derive (request_id : String) (msg : List ℕ) : HsmEvent
  | storeNonce (request_id commitment_hex : String) : HsmEvent

/-- State transition for one HSM event; a failed operation (raised
exception) leaves the token state unchanged. -/
def hsmStep (kdf : ℕ → String → List ℕ → ℕ) (rser : ℕ → String)
    (st : HsmState) : HsmEvent → HsmState
  | .initDeriv => (initialize_nonce_derivation st).1
  | .derive rid msg =>
    match derive_nonce kdf rser st rid msg with
    | some d => d.2
    | none => st
  | .storeNonce rid c => (store_nonce_commitment st rid c).getD st

/-- The counter value held by the token (0 when the object is absent). -/
def hsmCounterVal (st : HsmState) : ℕ := st.counter.getD 0

/-- The sequence of counter values observed (returned) by the successful
`derive_nonce` calls along a trace. -/
def deriveObservations (kdf : ℕ → String → List ℕ → ℕ) (rser : ℕ → String)
    (st : HsmState) : List HsmEvent → List ℕ
  | [] => []
  | .derive rid msg :: rest =>
    match derive_nonce kdf rser st rid msg with
    | some d => d.1.counter :: deriveObservations kdf rser d.2 rest
    | none => deriveObservations kdf rser st rest
  | e :: rest => deriveObservations kdf rser (hsmStep kdf rser st e) rest

/-! ## Persistent node-state store (`state.py`) -/

/-- Derivation metadata recorded per request
(`{counter, R_hex, message_hash_hex}`). -/
structure DerivMeta where
  counter : ℕ
  R_hex : String
  message_hash_hex : String
  deriving DecidableEq

/-- `SigningState`: nonce tracking. -/
structure SigningStateRec where
  used_nonces : List (String × String)
  nonce_derivations : List (String × DerivMeta)

/-- `DKGState`. -/
structure DKGStateRec where
  round_id : String
  phase : String
  threshold : ℕ
  total_nodes : ℕ
  my_share_stored : Bool
  group_pubkey_hex : String

/-- `NodeState`. -/
structure NodeStateRec where
  node_id : String
  initialized : Bool
  identity_key_posted : Bool
  dkg : DKGStateRec
  signing : SigningStateRec

/-- The state written on first creation (`NodeState(node_id=node_id)`
with dataclass defaults): both nonce maps empty. -/
def initialNodeState (node_id : String) : NodeStateRec :=
  { node_id := node_id, initialized := false, identity_key_posted := false,
    dkg := { round_id := "", phase := "none", threshold := 0, total_nodes := 0,
             my_share_stored := false, group_pubkey_hex := "" },
    signing := { used_nonces := [], nonce_derivations := [] } }

/-- The updaters the codebase runs through `RigidState.update`:
the two nonce-recording operations of `state.py` and the flag/DKG-field
updates of `main.py` (`init`, `dkg-start`, `dkg-distribute`,
`dkg-finalize`). -/
inductive StoreOp where
  | recordNonceUse (request_id commitment : String) : StoreOp
  | recordNonceDerivation (request_id : String) (counter : ℕ)
      (R_hex message_hash_hex : String) : StoreOp
  | markInitialized : StoreOp
  | dkgStart (round_id : String) (threshold total : ℕ) : StoreOp
  | dkgDistributed : StoreOp
  | dkgFinalized (pk_hex : String) : StoreOp

/-- Apply one store operation. `recordNonceUse` writes only
`used_nonces`; `recordNonceDerivation` writes the same `request_id` into
both maps; the remaining updaters do not touch the signing maps. -/
def applyStoreOp (s : NodeStateRec) : StoreOp → NodeStateRec
  | .recordNonceUse rid c =>
    { s with signing :=
        { s.signing with used_nonces := dictInsert s.signing.used_nonces rid c } }
  | .recordNonceDerivation rid counter Rhex mh =>
    { s with signing :=
        { used_nonces := dictInsert s.signing.used_nonces rid Rhex,
          nonce_derivations := dictInsert s.signing.nonce_derivations rid
            { counter := counter, R_hex := Rhex, message_hash_hex := mh } } }
  | .markInitialized =>
    { s with initialized := true, identity_key_posted := true }
  | .dkgStart rid t n =>
    { s with dkg :=
        { s.dkg with round_id := rid, phase := "committed", threshold := t,
                     total_nodes := n } }
  | .dkgDistributed => { s with dkg := { s.dkg with phase := "distributed" } }
  | .dkgFinalized pk =>
    { s with dkg :=
        { s.dkg with phase := "finalized", my_share_stored := true,
                     group_pubkey_hex := pk } }

/-! ## Triple-layer nonce-reuse guard (`main.py` `sign-approve`)

A `sign-approve` run for `request_id` is modelled by the witnesses it
consults and writes: the local `used_nonces` keys, the HSM
`NONCE_<request_id>` objects, and the board commitments at
`signing/<request_id>/commitments/<self>`.  Local-state rewinds and board
rewinds replace those witnesses by arbitrary snapshots; the HSM is not
rewindable.  HSM store operations succeed (device failures out of scope).
-/

/-- The three nonce-use witnesses a node consults. -/
structure GuardState where
  localUsed : List String
  hsmNonce : List String
  board : List String

/-- The fresh node: nothing recorded anywhere. -/
def guardInit : GuardState := { localUsed := [], hsmNonce := [], board := [] }

/-- One `sign-approve` run for `rid`, following `main.py` lines 564–707:
layer 1 (local state), layer 2 (HSM), layer 3 (board, with the recovery
step that re-records an on-board commitment into HSM and local state and
aborts).  Only when all three pass does the node derive a nonce, store
the HSM record, record locally, and post — the boolean reports whether a
derivation (and hence a posted `NonceCommitment`) happened. -/
def approveStep (st : GuardState) (rid : String) : GuardState × Bool :=
  if rid ∈ st.localUsed then (st, false)
  else if rid ∈ st.hsmNonce then (st, false)
  else if rid ∈ st.board then
    ({ st with hsmNonce := st.hsmNonce ++ [rid], localUsed := st.localUsed ++ [rid] },
      false)
  else
    ({ localUsed := st.localUsed ++ [rid], hsmNonce := st.hsmNonce ++ [rid],
       board := st.board ++ [rid] }, true)

/-- Events of the rewind game: approve calls interleaved with local-state
restores and board rewinds (each replacing the respective witness set by
an arbitrary snapshot, e.g. an earlier backup or an empty directory). -/
inductive GuardEvent where
  | approve (request_id : String) : GuardEvent
  | rewindLocal (snapshot : List String) : GuardEvent
  | rewindBoard (snapshot : List String) : GuardEvent

/-- Transition of the guard state under one event. -/
def guardStep (st : GuardState) : GuardEvent → GuardState
  | .approve rid => (approveStep st rid).1
  | .rewindLocal l => { st with localUsed := l }
  | .rewindBoard b => { st with board := b }

/-- Number of nonce derivations (equivalently, posted nonce commitments)
for `rid` along a trace starting at `st`. -/
def guardDerivations (st : GuardState) : List GuardEvent → String → ℕ
  | [], _ => 0
  | .approve r :: rest, rid =>
    (if r = rid ∧ (approveStep st r).2 = true then 1 else 0) +
      guardDerivations (approveStep st r).1 rest rid
  | e :: rest, rid => guardDerivations (guardStep st e) rest rid

/-- The coordinate chosen by `hex_to_point` for a parsed `x` under the
string's first two characters: the square-root candidate, negated when
its parity disagrees with a `"02"`/`"03"` leading pair. -/
def chosenY (pfx : List Char) (x : ℕ) : ℕ :=
  if (pfx = ['0', '2'] ∧ ¬ sqrtCand x % 2 = 0) ∨
      (pfx = ['0', '3'] ∧ sqrtCand x % 2 = 0) then
    secp_p - sqrtCand x
  else sqrtCand x

/-- State after a sequence of store operations applied to the freshly
created node state. -/
def runStore (node_id : String) (ops : List StoreOp) : NodeStateRec :=
  ops.foldl applyStoreOp (initialNodeState node_id)

/-- The layered-guard consistency invariant of the state store: every
request id carrying derivation metadata is also in `used_nonces`. -/
def storeInv (s : NodeStateRec) : Prop :=
  ∀ rid, (alookup s.signing.nonce_derivations rid).isSome = true →
    (alookup s.signing.used_nonces rid).isSome = true

/-- Structural invariant of the HSM token: the counter object exists
exactly from seed creation on (both are created together by
`initialize_nonce_derivation`). -/
def HsmInv (st : HsmState) : Prop := st.seed = false → st.counter = none

/-- State of the token after a trace of nonce-subsystem events. -/
def runHsm (kdf : ℕ → String → List ℕ → ℕ) (rser : ℕ → String)
    (st : HsmState) (evs : List HsmEvent) : HsmState :=
  evs.foldl (hsmStep kdf rser) st

/-- Verification-side auxiliary (not program code): the polynomial whose
coefficient list is `c` in ascending powers, in Horner form.  It packages
the dealer coefficient lists of the DKG for the Lagrange-interpolation
argument. -/
noncomputable def listPoly {R : Type} [Semiring R] : List R → Polynomial R
  | [] => 0
  | a :: rest => Polynomial.C a + Polynomial.X * listPoly rest

/-- The compressed encoding of the secp256k1 generator (even `y`). -/
def genHex : String :=
  "0279be667ef9dcbbac55a06295ce870b07029bfcdb2dce28d959f2815b16f81798"

/-- The generator's x-coordinate. -/
def genX : ℕ :=
  0x79be667ef9dcbbac55a06295ce870b07029bfcdb2dce28d959f2815b16f81798

/-- The challenge every honest participant (and the verifier) computes in
the honest run: the aggregate nonce point is `Σ_{n ∈ S} k_n · G` and the
preimage is `R_hex ++ P_hex` followed by the message hash. -/
def honestChallenge {q : ℕ} {Pt : Type} [AddCommGroup Pt] [Module (ZMod q) Pt]
    (G : Pt) (ser : Pt → String) (Hash : String → List ℕ → ZMod q)
    (dealers : List (List (ZMod q))) (S : List String) (msg : List ℕ)
    (k : String → ZMod q) : ZMod q :=
  Hash (ser ((S.map fun n => k n • G).sum) ++ ser (dkgGroupPk G dealers)) msg

/-- The partial-signature scalar `s_i = k_i + e·λ_i·x_i` that
`compute_partial_signature` emits for participant `nid` in the honest
run, with `λ_i` the num/den product loops and `x_i` the DKG share. -/
def honestPartialScalar {q : ℕ} {Pt : Type} [AddCommGroup Pt] [Module (ZMod q) Pt]
    (G : Pt) (ser : Pt → String) (Hash : String → List ℕ → ZMod q)
    (dealers : List (List (ZMod q))) (S : List String) (msg : List ℕ)
    (k : String → ZMod q) (I : String → ℕ) (nid : String) : ZMod q :=
  k nid + honestChallenge G ser Hash dealers S msg k *
    (lagrangeNum q (I nid) (S.map I) * (lagrangeDen q (I nid) (S.map I))⁻¹) *
    dkgFinalShare dealers (I nid)

/-- Concrete group generator for the small-field signing example. -/
def witG : ZMod 5 := 1

/-- Concrete serializer for the small-field signing example. -/
def witSer : ZMod 5 → String := fun p => scalarHex p

/-- Concrete deserializer (parse hex, reduce mod 5). -/
def witDeser : String → ZMod 5 := fun s =>
  match parseHexList? s.data with
  | some v => ((v : ℕ) : ZMod 5)
  | none => 0

/-- Constant challenge hash for the small-field signing example. -/
def witHash : String → List ℕ → ZMod 5 := fun _ _ => 1

/-- Two dealers with polynomials `1 + 2x` and `3 + 4x` over `ZMod 5`. -/
def witDealers : List (List (ZMod 5)) := [[1, 2], [3, 4]]

/-- Participant index map for the small-field signing example. -/
def witI : String → ℕ := fun n => if n = "node1" then 1 else 2

/-- Constant derived nonce for the small-field signing example. -/
def witK : String → ZMod 5 := fun _ => 2

/-! # Theorems -/

set_option maxRecDepth 10000

/-! ## Hex-digit and hex-string lemmas -/

theorem hexDigitVal_hexDigitChar : ∀ d < 16, hexDigitVal? (hexDigitChar d) = some d := by
  decide

theorem hexDigitChar_mem_lower : ∀ d < 16, hexDigitChar d ∈ lowerHexDigits := by
  decide

theorem lower_digit_spec :
    ∀ c ∈ lowerHexDigits, ∃ d, hexDigitVal? c = some d ∧ d < 16 ∧ hexDigitChar d = c := by
  decide

theorem natToHexW_length (w n : ℕ) : (natToHexW w n).length = w := by
  induction w generalizing n with
  | zero => rfl
  | succ w ih => simp [natToHexW, ih]

theorem natToHexW_mem_lower (w n : ℕ) : ∀ c ∈ natToHexW w n, c ∈ lowerHexDigits := by
  induction w generalizing n with
  | zero => intro c hc; simp [natToHexW] at hc
  | succ w ih =>
    intro c hc
    simp only [natToHexW, List.mem_append, List.mem_singleton] at hc
    rcases hc with hc | hc
    · exact ih _ c hc
    · subst hc; exact hexDigitChar_mem_lower _ (Nat.mod_lt _ (by norm_num))

theorem parseHexAux_append (l1 l2 : List Char) (acc : ℕ) :
    parseHexAux (l1 ++ l2) acc =
      (parseHexAux l1 acc).bind (fun a => parseHexAux l2 a) := by
  induction l1 generalizing acc with
  | nil => rfl
  | cons c rest ih =>
    simp only [List.cons_append, parseHexAux]
    cases hexDigitVal? c with
    | none => rfl
    | some d => exact ih _

theorem parseHexAux_natToHexW (w : ℕ) :
    ∀ n acc, n < 16 ^ w → parseHexAux (natToHexW w n) acc = some (acc * 16 ^ w + n) := by
  induction w with
  | zero =>
    intro n acc hn
    interval_cases n
    simp [natToHexW, parseHexAux]
  | succ w ih =>
    intro n acc hn
    have hdiv : n / 16 < 16 ^ w := by
      have : n < 16 ^ w * 16 := by
        calc n < 16 ^ (w + 1) := hn
        _ = 16 ^ w * 16 := by ring
      omega
    rw [natToHexW, parseHexAux_append, ih (n / 16) acc hdiv]
    have hm : n % 16 < 16 := Nat.mod_lt _ (by norm_num)
    simp only [Option.some_bind, parseHexAux, hexDigitVal_hexDigitChar (n % 16) hm]
    congr 1
    have hmod : 16 * (n / 16) + n % 16 = n := by omega
    calc 16 * (acc * 16 ^ w + n / 16) + n % 16
        = acc * (16 * 16 ^ w) + (16 * (n / 16) + n % 16) := by ring
      _ = acc * 16 ^ (w + 1) + n := by rw [hmod]; ring_nf

theorem parseHexList_natToHexW (w n : ℕ) (hw : 0 < w) (hn : n < 16 ^ w) :
    parseHexList? (natToHexW w n) = some n := by
  have hne : natToHexW w n ≠ [] := by
    intro h
    have := natToHexW_length w n
    rw [h] at this
    simp at this
    omega
  rw [parseHexList?, if_neg hne, parseHexAux_natToHexW w n 0 hn]
  simp

/-- Formatting inverts parsing on lists of canonical lowercase digits. -/
theorem natToHexW_parseHexAux (l : List Char) (hl : ∀ c ∈ l, c ∈ lowerHexDigits) :
    ∃ v, parseHexAux l 0 = some v ∧ v < 16 ^ l.length ∧ natToHexW l.length v = l := by
  induction l using List.reverseRecOn with
  | nil => exact ⟨0, rfl, by norm_num, rfl⟩
  | append_singleton l c ih =>
    obtain ⟨v, hparse, hbound, hfmt⟩ :=
      ih (fun c hc => hl c (List.mem_append_left _ hc))
    obtain ⟨d, hcd, hd16, hdc⟩ :=
      lower_digit_spec c (hl c (List.mem_append_right _ (List.mem_singleton_self c)))
    refine ⟨16 * v + d, ?_, ?_, ?_⟩
    · rw [parseHexAux_append, hparse]
      simp [parseHexAux, hcd]
    · have : (l ++ [c]).length = l.length + 1 := by simp
      rw [this]
      have : 16 ^ (l.length + 1) = 16 * 16 ^ l.length := by ring
      omega
    · have hlen : (l ++ [c]).length = l.length + 1 := by simp
      rw [hlen, natToHexW]
      have h1 : (16 * v + d) / 16 = v := by omega
      have h2 : (16 * v + d) % 16 = d := by omega
      rw [h1, h2, hfmt, hdc]

/-! ## secp256k1 serialization lemmas -/

theorem powModAux_lt (m : ℕ) (hm : 0 < m) :
    ∀ fuel b e, powModAux m fuel b e < m := by
  intro fuel
  induction fuel with
  | zero => intro b e; exact Nat.mod_lt _ hm
  | succ fuel ih =>
    intro b e
    rw [powModAux]
    split
    · exact Nat.mod_lt _ hm
    · split
      · exact Nat.mod_lt _ hm
      · exact ih _ _

theorem sqrtCand_lt (x : ℕ) : sqrtCand x < secp_p := by
  have : 0 < secp_p := by norm_num [secp_p]
  exact powModAux_lt secp_p this _ _ _

theorem secp_p_odd : secp_p % 2 = 1 := by norm_num [secp_p]

theorem onCurve_neg (x y : ℕ) (hy : y ≤ secp_p) (h : onCurve x y) :
    onCurve x (secp_p - y) := by
  rw [onCurve] at h ⊢
  have h2 : ((y * y : ℕ) : ZMod secp_p) = ((x * x * x + 0 * x + 7 : ℕ) : ZMod secp_p) :=
    (ZMod.natCast_eq_natCast_iff _ _ _).mpr h
  apply (ZMod.natCast_eq_natCast_iff _ _ _).mp
  push_cast [Nat.cast_sub hy] at h2 ⊢
  rw [ZMod.natCast_self]
  linear_combination h2

theorem chosenY_parity_02 (x : ℕ) : chosenY ['0', '2'] x % 2 = 0 := by
  have hlt := sqrtCand_lt x
  have hodd := secp_p_odd
  rw [chosenY]
  split
  · next hcond =>
    rcases hcond with ⟨_, hpar⟩ | ⟨habs, _⟩
    · omega
    · simp at habs
  · next hcond =>
    push_neg at hcond
    rcases Nat.mod_two_eq_zero_or_one (sqrtCand x) with hp | hp
    · exact hp
    · exact absurd hp (by simpa using (hcond.1 rfl))

theorem chosenY_parity_03 (x : ℕ) : chosenY ['0', '3'] x % 2 = 1 := by
  have hlt := sqrtCand_lt x
  have hodd := secp_p_odd
  rw [chosenY]
  split
  · next hcond =>
    rcases hcond with ⟨habs, _⟩ | ⟨_, hpar⟩
    · simp at habs
    · omega
  · next hcond =>
    push_neg at hcond
    rcases Nat.mod_two_eq_zero_or_one (sqrtCand x) with hp | hp
    · exact absurd hp (hcond.2 rfl)
    · exact hp

theorem onCurve_chosenY (pfx : List Char) (x : ℕ) (h : onCurve x (sqrtCand x)) :
    onCurve x (chosenY pfx x) := by
  rw [chosenY]
  split
  · exact onCurve_neg x _ (Nat.le_of_lt (sqrtCand_lt x)) h
  · exact h

theorem onCurve_not_identity (x y : ℕ) (h : onCurve x y) : ¬ (x = 0 ∧ y = 0) := by
  rintro ⟨rfl, rfl⟩
  rw [onCurve] at h
  norm_num [secp_p] at h

theorem hex_to_point_of_ne (h : String) (hne : h ≠ "00") :
    hex_to_point h =
      (parseHexList? (h.data.drop 2)).bind fun x =>
        if onCurve x (chosenY (h.data.take 2) x) then
          some ⟨x, chosenY (h.data.take 2) x⟩
        else none := by
  rw [hex_to_point, if_neg hne]
  cases parseHexList? (h.data.drop 2) <;> rfl

/-- Round-trip core: on every well-formed encoding, deserialization
succeeds and serialization returns the original string, with the
parity-prefix correspondence. -/
theorem hex_roundtrip_core (h : String) (hwf : WellFormedHex h) :
    ∃ P, hex_to_point h = some P ∧ point_to_hex P = h ∧
      (¬ is_identity P → ((h.data.take 2 = ['0', '2']) ↔ P.y % 2 = 0)) := by
  rcases hwf with h00 | ⟨hlen, hpfx, hdigits, x, hparse, hxlt, hcurve⟩
  · subst h00
    exact ⟨cIdentity, by decide, by decide, fun hni => absurd ⟨rfl, rfl⟩ hni⟩
  · have hne : h ≠ "00" := by
      intro heq
      rw [heq] at hlen
      have h2 : ("00" : String).data.length = 2 := rfl
      omega
    have hcy : onCurve x (chosenY (h.data.take 2) x) := onCurve_chosenY _ _ hcurve
    have hdes : hex_to_point h = some ⟨x, chosenY (h.data.take 2) x⟩ := by
      rw [hex_to_point_of_ne h hne, hparse, Option.some_bind, if_pos hcy]
    have hdl : (h.data.drop 2).length = 64 := by
      rw [List.length_drop]; omega
    obtain ⟨v, hv, hvlt, hvfmt⟩ := natToHexW_parseHexAux (h.data.drop 2) hdigits
    have hdropne : h.data.drop 2 ≠ [] := by
      intro hnil; rw [hnil] at hdl; simp at hdl
    have hvx : v = x := by
      rw [parseHexList?, if_neg hdropne, hv] at hparse
      exact Option.some.inj hparse
    rw [hvx] at hvfmt
    rw [hdl] at hvfmt
    have hni : ¬ is_identity (⟨x, chosenY (h.data.take 2) x⟩ : CPoint) := by
      intro hid
      exact onCurve_not_identity x _ hcy ⟨hid.1, hid.2⟩
    refine ⟨⟨x, chosenY (h.data.take 2) x⟩, hdes, ?_, ?_⟩
    · rw [point_to_hex, if_neg hni]
      show (if chosenY (h.data.take 2) x % 2 = 0 then "02" else "03") ++
        String.mk (natToHexW 64 x) = h
      rcases hpfx with h02 | h03
      · have hpar : chosenY (h.data.take 2) x % 2 = 0 := by
          rw [h02]; exact chosenY_parity_02 x
        rw [if_pos hpar]
        apply String.ext
        rw [String.data_append]
        have hd1 : ("02" : String).data = ['0', '2'] := rfl
        have hd2 : (String.mk (natToHexW 64 x)).data = natToHexW 64 x := rfl
        rw [hd1, hd2, hvfmt, ← h02, List.take_append_drop]
      · have hpar : chosenY (h.data.take 2) x % 2 = 1 := by
          rw [h03]; exact chosenY_parity_03 x
        rw [if_neg (by omega)]
        apply String.ext
        rw [String.data_append]
        have hd1 : ("03" : String).data = ['0', '3'] := rfl
        have hd2 : (String.mk (natToHexW 64 x)).data = natToHexW 64 x := rfl
        rw [hd1, hd2, hvfmt, ← h03, List.take_append_drop]
    · intro _
      constructor
      · intro h02
        rw [h02]
        exact chosenY_parity_02 x
      · intro hpar
        rcases hpfx with h02 | h03
        · exact h02
        · exfalso
          rw [h03] at hpar
          have hpar2 : chosenY ['0', '3'] x % 2 = 0 := hpar
          have := chosenY_parity_03 x
          omega

/-- C9 (confirmed).  On every well-formed compressed encoding `h`
(including the identity encoding `"00"`), deserialization succeeds,
serializing the result returns `h` itself, the `"02"`/`"03"` parity
prefix matches `y mod 2` of the recovered point, and the encoding is
canonical: no other well-formed encoding deserializes to the same
point. -/
theorem serialize_deserialize_id_canonical (h : String) (hwf : WellFormedHex h) :
    ∃ P, hex_to_point h = some P ∧ point_to_hex P = h ∧
      (¬ is_identity P → ((h.data.take 2 = ['0', '2']) ↔ P.y % 2 = 0)) ∧
      ∀ h2, WellFormedHex h2 → hex_to_point h2 = some P → h2 = h := by
  obtain ⟨P, hdes, hser, hpar⟩ := hex_roundtrip_core h hwf
  refine ⟨P, hdes, hser, hpar, ?_⟩
  intro h2 hwf2 hdes2
  obtain ⟨P2, hdes2', hser2', _⟩ := hex_roundtrip_core h2 hwf2
  rw [hdes2] at hdes2'
  rw [← hser2', ← Option.some.inj hdes2', hser]

/-- Witness for C9: the theorem applied to the generator's compressed
encoding. -/
theorem serialize_deserialize_id_canonical_witness :
    WellFormedHex genHex ∧
      ∃ P, hex_to_point genHex = some P ∧ point_to_hex P = genHex ∧
        (¬ is_identity P → ((genHex.data.take 2 = ['0', '2']) ↔ P.y % 2 = 0)) ∧
        ∀ h2, WellFormedHex h2 → hex_to_point h2 = some P → h2 = genHex := by
  have hwf : WellFormedHex genHex := by
    refine Or.inr ⟨by decide, Or.inl (by decide), by decide, genX, by decide, by decide, by decide⟩
  exact ⟨hwf, serialize_deserialize_id_canonical genHex hwf⟩

/-- C8 counterexample: the claim states that deserialization fails
whenever the two leading characters are not one of `"00"`, `"02"`,
`"03"`; but `hex_to_point` accepts a `"04"`-prefixed encoding of the
generator's x-coordinate (it never inspects prefix membership, nor the
length, nor `x < p`). -/
theorem hex_to_point_accepts_bad_prefix :
    (hex_to_point
      "0479be667ef9dcbbac55a06295ce870b07029bfcdb2dce28d959f2815b16f81798").isSome
      = true ∧
    ("0479be667ef9dcbbac55a06295ce870b07029bfcdb2dce28d959f2815b16f81798" : String).data.take 2
      ∉ [['0', '0'], ['0', '2'], ['0', '3']] := by
  constructor
  · decide
  · decide

/-- C8 (corrected).  `hex_to_point` maps `"00"` to the identity;
on any other input it succeeds exactly when the characters after the
first two parse as hex and the derived coordinate pair passes the
curve-equation check.  Wrong length, an unknown leading pair and
`x ≥ p` are not rejected (and failures surface as generic Python
exceptions rather than a dedicated `InvalidEncoding`). -/
theorem hex_to_point_success_characterization :
    hex_to_point "00" = some cIdentity ∧
      ∀ h, h ≠ "00" →
        ((hex_to_point h).isSome = true ↔
          ∃ x, parseHexList? (h.data.drop 2) = some x ∧
            onCurve x (chosenY (h.data.take 2) x)) := by
  refine ⟨by decide, ?_⟩
  intro h hne
  rw [hex_to_point_of_ne h hne]
  cases hp : parseHexList? (h.data.drop 2) with
  | none =>
    rw [Option.none_bind]
    constructor
    · intro habs; exact absurd habs (by simp)
    · rintro ⟨x, hx, _⟩
      exact absurd hx (by simp)
  | some x =>
    rw [Option.some_bind]
    by_cases hc : onCurve x (chosenY (h.data.take 2) x)
    · rw [if_pos hc]
      exact ⟨fun _ => ⟨x, rfl, hc⟩, fun _ => rfl⟩
    · rw [if_neg hc]
      constructor
      · intro habs; exact absurd habs (by simp)
      · rintro ⟨x2, hx2, hc2⟩
        rw [← Option.some.inj hx2] at hc2
        exact absurd hc2 hc

/-- Witness for the corrected C8 theorem: applied to the wrong-length
input `"021"`, which the original claim says must fail but which
deserializes successfully (x = 1, y² = 8 has a square root). -/
theorem hex_to_point_success_characterization_witness :
    ((hex_to_point "021").isSome = true ↔
      ∃ x, parseHexList? (("021" : String).data.drop 2) = some x ∧
        onCurve x (chosenY (("021" : String).data.take 2) x)) ∧
      (hex_to_point "021").isSome = true := by
  exact ⟨hex_to_point_success_characterization.2 "021" (by decide), by decide⟩

/-! ## Dict lemmas -/

theorem alookup_dictInsert_self {β : Type} (l : List (String × β)) (k : String) (v : β) :
    alookup (dictInsert l k v) k = some v := by
  induction l with
  | nil => simp [dictInsert, alookup]
  | cons kv rest ih =>
    rw [dictInsert]
    by_cases hk : kv.1 = k
    · rw [if_pos hk, alookup, if_pos rfl]
    · rw [if_neg hk, alookup, if_neg hk, ih]

theorem alookup_dictInsert_ne {β : Type} (l : List (String × β)) (k : String) (v : β)
    (k2 : String) (h : k2 ≠ k) :
    alookup (dictInsert l k v) k2 = alookup l k2 := by
  induction l with
  | nil =>
    have hne : ¬ ((k, v).1 = k2) := fun he => h he.symm
    simp only [dictInsert, alookup, if_neg hne]
  | cons kv rest ih =>
    rw [dictInsert]
    by_cases hk : kv.1 = k
    · rw [if_pos hk, alookup, if_neg (show ¬ ((k, v).1 = k2) from fun he => h he.symm),
        alookup, if_neg (show ¬ (kv.1 = k2) from fun he => h ((hk.symm.trans he).symm))]
    · rw [if_neg hk, alookup, alookup]
      by_cases hk2 : kv.1 = k2
      · rw [if_pos hk2, if_pos hk2]
      · rw [if_neg hk2, if_neg hk2, ih]

/-! ## C1 — the triple-layer guard under rewinds -/

theorem approveStep_flag_iff (st : GuardState) (rid : String) :
    (approveStep st rid).2 = true ↔
      rid ∉ st.localUsed ∧ rid ∉ st.hsmNonce ∧ rid ∉ st.board := by
  rw [approveStep]
  by_cases h1 : rid ∈ st.localUsed
  · rw [if_pos h1]; simp [h1]
  · rw [if_neg h1]
    by_cases h2 : rid ∈ st.hsmNonce
    · rw [if_pos h2]; simp [h1, h2]
    · rw [if_neg h2]
      by_cases h3 : rid ∈ st.board
      · rw [if_pos h3]; simp [h1, h2, h3]
      · rw [if_neg h3]; simp [h1, h2, h3]

theorem approveStep_hsm_mono (st : GuardState) (rid r : String) (h : r ∈ st.hsmNonce) :
    r ∈ (approveStep st rid).1.hsmNonce := by
  rw [approveStep]
  by_cases h1 : rid ∈ st.localUsed
  · rw [if_pos h1]; exact h
  · rw [if_neg h1]
    by_cases h2 : rid ∈ st.hsmNonce
    · rw [if_pos h2]; exact h
    · rw [if_neg h2]
      by_cases h3 : rid ∈ st.board
      · rw [if_pos h3]; exact List.mem_append_left _ h
      · rw [if_neg h3]; exact List.mem_append_left _ h

theorem approveStep_flag_hsm (st : GuardState) (rid : String)
    (h : (approveStep st rid).2 = true) : rid ∈ (approveStep st rid).1.hsmNonce := by
  obtain ⟨h1, h2, h3⟩ := (approveStep_flag_iff st rid).mp h
  rw [approveStep, if_neg h1, if_neg h2, if_neg h3]
  exact List.mem_append_right _ (List.mem_singleton_self rid)

theorem guardStep_hsm_mono (st : GuardState) (e : GuardEvent) (r : String)
    (h : r ∈ st.hsmNonce) : r ∈ (guardStep st e).hsmNonce := by
  cases e with
  | approve rid => exact approveStep_hsm_mono st rid r h
  | rewindLocal l => exact h
  | rewindBoard b => exact h

theorem guardDerivations_zero_of_hsm (evs : List GuardEvent) :
    ∀ st rid, rid ∈ st.hsmNonce → guardDerivations st evs rid = 0 := by
  induction evs with
  | nil => intro st rid _; rfl
  | cons e rest ih =>
    intro st rid hmem
    cases e with
    | approve r =>
      rw [guardDerivations]
      have hflag : r = rid → (approveStep st r).2 = false := by
        intro hr
        subst hr
        rw [approveStep]
        by_cases h1 : r ∈ st.localUsed
        · rw [if_pos h1]
        · rw [if_neg h1, if_pos hmem]
      have hzero : (if r = rid ∧ (approveStep st r).2 = true then 1 else 0) = 0 := by
        by_cases hr : r = rid
        · rw [if_neg]; rintro ⟨hr2, hf⟩; rw [hflag hr2] at hf; exact absurd hf (by simp)
        · rw [if_neg]; rintro ⟨hr2, _⟩; exact hr hr2
      rw [hzero, ih _ _ (approveStep_hsm_mono st r rid hmem)]
    | rewindLocal l =>
      show guardDerivations (guardStep st (GuardEvent.rewindLocal l)) rest rid = 0
      exact ih _ _ (guardStep_hsm_mono st _ rid hmem)
    | rewindBoard b =>
      show guardDerivations (guardStep st (GuardEvent.rewindBoard b)) rest rid = 0
      exact ih _ _ (guardStep_hsm_mono st _ rid hmem)

theorem guardDerivations_le_one (evs : List GuardEvent) :
    ∀ st rid, guardDerivations st evs rid ≤ 1 := by
  induction evs with
  | nil => intro st rid; rw [guardDerivations]; omega
  | cons e rest ih =>
    intro st rid
    cases e with
    | approve r =>
      rw [guardDerivations]
      by_cases hd : r = rid ∧ (approveStep st r).2 = true
      · rw [if_pos hd]
        have hmem : rid ∈ (approveStep st r).1.hsmNonce := by
          rw [← hd.1]
          exact approveStep_flag_hsm st r hd.2
        rw [guardDerivations_zero_of_hsm rest _ _ hmem]
      · rw [if_neg hd]
        have := ih (approveStep st r).1 rid
        omega
    | rewindLocal l =>
      show guardDerivations (guardStep st (GuardEvent.rewindLocal l)) rest rid ≤ 1
      exact ih _ _
    | rewindBoard b =>
      show guardDerivations (guardStep st (GuardEvent.rewindBoard b)) rest rid ≤ 1
      exact ih _ _

/-- C1 (confirmed).  `sign-approve` proceeds to nonce derivation only
when the request id is absent from the local `used_nonces`, absent from
the HSM's `NONCE_<request_id>` records, and absent from the board; and
along any sequence of approve calls interleaved with local-state rewinds
and board rewinds, a node derives a nonce — and hence produces a
`NonceCommitment` — at most once per request id. -/
theorem sign_approve_at_most_one_commitment :
    (∀ st rid, (approveStep st rid).2 = true →
      rid ∉ st.localUsed ∧ rid ∉ st.hsmNonce ∧ rid ∉ st.board) ∧
    (∀ evs rid, guardDerivations guardInit evs rid ≤ 1) := by
  constructor
  · intro st rid h
    exact (approveStep_flag_iff st rid).mp h
  · intro evs rid
    exact guardDerivations_le_one evs guardInit rid

/-- Witness for C1: the guard characterization applied to a fresh state,
and the derivation bound on a trace that approves `"r1"`, rewinds both
the local state and the board to empty, and approves `"r1"` again. -/
theorem sign_approve_at_most_one_commitment_witness :
    ("r1" ∉ guardInit.localUsed ∧ "r1" ∉ guardInit.hsmNonce ∧ "r1" ∉ guardInit.board) ∧
      guardDerivations guardInit
        [GuardEvent.approve "r1", GuardEvent.rewindLocal [],
         GuardEvent.rewindBoard [], GuardEvent.approve "r1"] "r1" ≤ 1 :=
  ⟨sign_approve_at_most_one_commitment.1 guardInit "r1" (by decide),
   sign_approve_at_most_one_commitment.2
     [GuardEvent.approve "r1", GuardEvent.rewindLocal [],
      GuardEvent.rewindBoard [], GuardEvent.approve "r1"] "r1"⟩

/-! ## C10 — the derivation map is always covered by `used_nonces` -/

theorem applyStoreOp_inv (s : NodeStateRec) (op : StoreOp) (h : storeInv s) :
    storeInv (applyStoreOp s op) := by
  cases op with
  | recordNonceUse rid c =>
    intro r hr
    simp only [applyStoreOp] at hr ⊢
    by_cases hrr : r = rid
    · subst hrr; rw [alookup_dictInsert_self]; rfl
    · rw [alookup_dictInsert_ne _ _ _ _ hrr]
      exact h r hr
  | recordNonceDerivation rid counter Rhex mh =>
    intro r hr
    simp only [applyStoreOp] at hr ⊢
    by_cases hrr : r = rid
    · subst hrr; rw [alookup_dictInsert_self]; rfl
    · rw [alookup_dictInsert_ne _ _ _ _ hrr] at hr
      rw [alookup_dictInsert_ne _ _ _ _ hrr]
      exact h r hr
  | markInitialized => exact h
  | dkgStart rid t n => exact h
  | dkgDistributed => exact h
  | dkgFinalized pk => exact h

theorem storeInv_initial (node_id : String) : storeInv (initialNodeState node_id) := by
  intro r hr
  simp [initialNodeState, alookup] at hr

theorem runStore_inv_aux (ops : List StoreOp) :
    ∀ s, storeInv s → storeInv (ops.foldl applyStoreOp s) := by
  induction ops with
  | nil => intro s h; exact h
  | cons op rest ih =>
    intro s h
    exact ih _ (applyStoreOp_inv s op h)

/-- C10 (confirmed).  The fresh state has both nonce maps empty;
`record_nonce_use` writes only `used_nonces`; `record_nonce_derivation`
writes the same request id into both maps; every store operation
preserves the invariant that the keys of `nonce_derivations` form a
subset of the keys of `used_nonces`; hence the invariant holds in every
reachable store state, and a request id with derivation metadata is
always caught by the layer-1 `used_nonces` check. -/
theorem store_derivations_subset_used :
    (∀ node_id, (initialNodeState node_id).signing.used_nonces = [] ∧
      (initialNodeState node_id).signing.nonce_derivations = []) ∧
    (∀ s rid c,
      (applyStoreOp s (StoreOp.recordNonceUse rid c)).signing.nonce_derivations =
        s.signing.nonce_derivations ∧
      alookup (applyStoreOp s (StoreOp.recordNonceUse rid c)).signing.used_nonces rid =
        some c) ∧
    (∀ s rid counter Rhex mh,
      (alookup (applyStoreOp s
        (StoreOp.recordNonceDerivation rid counter Rhex mh)).signing.nonce_derivations
          rid).isSome = true ∧
      (alookup (applyStoreOp s
        (StoreOp.recordNonceDerivation rid counter Rhex mh)).signing.used_nonces
          rid).isSome = true) ∧
    (∀ s op, storeInv s → storeInv (applyStoreOp s op)) ∧
    (∀ node_id ops, storeInv (runStore node_id ops)) := by
  refine ⟨fun _ => ⟨rfl, rfl⟩, ?_, ?_, applyStoreOp_inv, ?_⟩
  · intro s rid c
    exact ⟨rfl, alookup_dictInsert_self _ _ _⟩
  · intro s rid counter Rhex mh
    constructor
    · simp only [applyStoreOp]
      rw [alookup_dictInsert_self]
      rfl
    · simp only [applyStoreOp]
      rw [alookup_dictInsert_self]
      rfl
  · intro node_id ops
    exact runStore_inv_aux ops _ (storeInv_initial node_id)

/-- Witness for C10: the preservation component applied to the fresh
state and a `record_nonce_use` operation. -/
theorem store_derivations_subset_used_witness :
    storeInv (applyStoreOp (initialNodeState "node1")
      (StoreOp.recordNonceUse "tx_1" "02ab")) :=
  store_derivations_subset_used.2.2.2.1 (initialNodeState "node1")
    (StoreOp.recordNonceUse "tx_1" "02ab") (storeInv_initial "node1")

/-! ## C7 — the HSM nonce counter is strictly increasing -/

theorem increment_nonce_counter_inversion (st : HsmState) (c2 : ℕ) (st1 : HsmState)
    (h : increment_nonce_counter st = some (c2, st1)) :
    ∃ c, st.counter = some c ∧ c2 = c + 1 ∧ c + 1 < 2 ^ 64 ∧
      st1 = { st with counter := some (c + 1) } := by
  rw [increment_nonce_counter] at h
  split at h
  · exact Option.noConfusion h
  · next c hcnt =>
    split at h
    · have h2 := Option.some.inj h
      rw [Prod.mk.injEq] at h2
      obtain ⟨hd, hst⟩ := h2
      subst hd
      subst hst
      next hlt => exact ⟨c, hcnt, rfl, hlt, rfl⟩
    · exact Option.noConfusion h

theorem derive_nonce_inversion (kdf : ℕ → String → List ℕ → ℕ) (rser : ℕ → String)
    (st : HsmState) (rid : String) (msg : List ℕ) (d : NonceDerivationRec)
    (st2 : HsmState) (h : derive_nonce kdf rser st rid msg = some (d, st2)) :
    ∃ c, st.seed = true ∧ st.counter = some c ∧ d.counter = c + 1 ∧
      st2.counter = some (c + 1) ∧ st2.seed = st.seed ∧
      st2.nonceObjs = st.nonceObjs ∧
      st2.derivRecords =
        st.derivRecords ++ [(c + 1, rid, d.R_hex, d.message_hash_hex)] := by
  rw [derive_nonce] at h
  split at h
  · exact Option.noConfusion h
  · next hns =>
    have hs : st.seed = true := by
      by_cases hb : st.seed = true
      · exact hb
      · exact absurd hb (fun hc => hns hc)
    split at h
    · exact Option.noConfusion h
    · next c2 st1 heq =>
      obtain ⟨c, hcnt, hc2, hlt, hst1⟩ :=
        increment_nonce_counter_inversion st c2 st1 heq
      subst hc2
      subst hst1
      dsimp only at h
      split at h
      · exact Option.noConfusion h
      · have h2 := Option.some.inj h
        rw [Prod.mk.injEq] at h2
        obtain ⟨hd, hst⟩ := h2
        subst hd
        subst hst
        exact ⟨c, hs, hcnt, rfl, rfl, rfl, rfl, rfl⟩

theorem hsmStep_inv (kdf : ℕ → String → List ℕ → ℕ) (rser : ℕ → String)
    (st : HsmState) (e : HsmEvent) (hinv : HsmInv st) :
    HsmInv (hsmStep kdf rser st e) := by
  cases e with
  | initDeriv =>
    rw [hsmStep, initialize_nonce_derivation]
    by_cases hs : st.seed = true
    · rw [if_pos hs]; exact hinv
    · rw [if_neg hs]
      intro habs
      exact absurd habs (by simp)
  | derive rid msg =>
    rw [hsmStep]
    cases hd : derive_nonce kdf rser st rid msg with
    | none => exact hinv
    | some p =>
      obtain ⟨c, hseed, hcnt, hdc, hcnt2, hseed2, hobjs, hrec⟩ :=
        derive_nonce_inversion kdf rser st rid msg p.1 p.2 (by rw [hd])
      show HsmInv p.2
      intro habs
      rw [hseed2, hseed] at habs
      exact absurd habs (by simp)
  | storeNonce rid chex =>
    rw [hsmStep, store_nonce_commitment]
    by_cases hmem : (alookup st.nonceObjs rid).isSome = true
    · rw [if_pos hmem]; exact hinv
    · rw [if_neg hmem]; exact hinv

theorem hsmStep_counter_mono (kdf : ℕ → String → List ℕ → ℕ) (rser : ℕ → String)
    (st : HsmState) (e : HsmEvent) (hinv : HsmInv st) :
    hsmCounterVal st ≤ hsmCounterVal (hsmStep kdf rser st e) := by
  cases e with
  | initDeriv =>
    rw [hsmStep, initialize_nonce_derivation]
    by_cases hs : st.seed = true
    · rw [if_pos hs]
    · rw [if_neg hs]
      have hnone : st.counter = none := hinv (by simpa using hs)
      rw [hsmCounterVal, hsmCounterVal, hnone]
      simp
  | derive rid msg =>
    rw [hsmStep]
    cases hd : derive_nonce kdf rser st rid msg with
    | none => exact le_refl _
    | some p =>
      obtain ⟨c, _, hcnt, _, hcnt2, _, _, _⟩ :=
        derive_nonce_inversion kdf rser st rid msg p.1 p.2 (by rw [hd])
      show hsmCounterVal st ≤ hsmCounterVal p.2
      rw [hsmCounterVal, hsmCounterVal, hcnt, hcnt2]
      simp
  | storeNonce rid chex =>
    rw [hsmStep, store_nonce_commitment]
    by_cases hmem : (alookup st.nonceObjs rid).isSome = true
    · rw [if_pos hmem]
      exact le_refl _
    · rw [if_neg hmem]
      exact le_refl _

theorem runHsm_inv (kdf : ℕ → String → List ℕ → ℕ) (rser : ℕ → String)
    (evs : List HsmEvent) : ∀ st, HsmInv st → HsmInv (runHsm kdf rser st evs) := by
  induction evs with
  | nil => intro st h; exact h
  | cons e rest ih =>
    intro st h
    exact ih _ (hsmStep_inv kdf rser st e h)

theorem deriveObservations_gt (kdf : ℕ → String → List ℕ → ℕ) (rser : ℕ → String)
    (evs : List HsmEvent) :
    ∀ st, HsmInv st →
      ∀ o ∈ deriveObservations kdf rser st evs, hsmCounterVal st < o := by
  induction evs with
  | nil =>
    intro st _ o ho
    simp [deriveObservations] at ho
  | cons e rest ih =>
    intro st hinv o ho
    cases e with
    | derive rid msg =>
      rw [deriveObservations] at ho
      cases hd : derive_nonce kdf rser st rid msg with
      | none =>
        rw [hd] at ho
        exact ih st hinv o ho
      | some p =>
        replace ho : o ∈ p.1.counter :: deriveObservations kdf rser p.2 rest := by
          rw [hd] at ho
          exact ho
        obtain ⟨c, hseed, hcnt, hpc, hcnt2, hseed2, _, _⟩ :=
          derive_nonce_inversion kdf rser st rid msg p.1 p.2 (by rw [hd])
        have hval : hsmCounterVal st = c := by rw [hsmCounterVal, hcnt]; rfl
        rcases List.mem_cons.mp ho with hone | hrest
        · rw [hval, hone, hpc]; omega
        · have hinv2 : HsmInv p.2 := by
            intro habs
            rw [hseed2, hseed] at habs
            exact absurd habs (by simp)
          have := ih p.2 hinv2 o hrest
          rw [hsmCounterVal, hcnt2] at this
          rw [hval]
          simp at this
          omega
    | initDeriv =>
      replace ho :
          o ∈ deriveObservations kdf rser (hsmStep kdf rser st .initDeriv) rest := ho
      have h1 := ih _ (hsmStep_inv kdf rser st .initDeriv hinv) o ho
      have h2 := hsmStep_counter_mono kdf rser st .initDeriv hinv
      omega
    | storeNonce rid chex =>
      replace ho :
          o ∈ deriveObservations kdf rser (hsmStep kdf rser st (.storeNonce rid chex))
            rest := ho
      have h1 := ih _ (hsmStep_inv kdf rser st (.storeNonce rid chex) hinv) o ho
      have h2 := hsmStep_counter_mono kdf rser st (.storeNonce rid chex) hinv
      omega

theorem deriveObservations_pairwise (kdf : ℕ → String → List ℕ → ℕ)
    (rser : ℕ → String) (evs : List HsmEvent) :
    ∀ st, HsmInv st →
      (deriveObservations kdf rser st evs).Pairwise (· < ·) := by
  induction evs with
  | nil => intro st _; simp [deriveObservations]
  | cons e rest ih =>
    intro st hinv
    cases e with
    | derive rid msg =>
      rw [deriveObservations]
      cases hd : derive_nonce kdf rser st rid msg with
      | none => exact ih st hinv
      | some p =>
        obtain ⟨c, hseed, hcnt, hpc, hcnt2, hseed2, _, _⟩ :=
          derive_nonce_inversion kdf rser st rid msg p.1 p.2 (by rw [hd])
        have hinv2 : HsmInv p.2 := by
          intro habs
          rw [hseed2, hseed] at habs
          exact absurd habs (by simp)
        show (p.1.counter :: deriveObservations kdf rser p.2 rest).Pairwise (· < ·)
        rw [List.pairwise_cons]
        constructor
        · intro o ho
          have := deriveObservations_gt kdf rser rest p.2 hinv2 o ho
          rw [hsmCounterVal, hcnt2] at this
          rw [hpc]
          simpa using this
        · exact ih p.2 hinv2
    | initDeriv =>
      show (deriveObservations kdf rser (hsmStep kdf rser st .initDeriv) rest).Pairwise
        (· < ·)
      exact ih _ (hsmStep_inv kdf rser st .initDeriv hinv)
    | storeNonce rid chex =>
      show (deriveObservations kdf rser (hsmStep kdf rser st (.storeNonce rid chex))
        rest).Pairwise (· < ·)
      exact ih _ (hsmStep_inv kdf rser st (.storeNonce rid chex) hinv)

/-- C7 (confirmed).  Within a single HSM lifetime: a successful
`derive_nonce` increments the counter by exactly one, and the
post-increment value is the one bound into the derivation record (hence
hashed into the derivation input); no nonce-subsystem operation ever
decreases the counter along a trace from the fresh token; consequently
the counter values observed by successive derive calls are strictly
increasing, so no two derive calls observe the same value. -/
theorem nonce_counter_strictly_increasing (kdf : ℕ → String → List ℕ → ℕ)
    (rser : ℕ → String) :
    (∀ st rid msg d st2, derive_nonce kdf rser st rid msg = some (d, st2) →
      ∃ c, st.counter = some c ∧ d.counter = c + 1 ∧ st2.counter = some (c + 1) ∧
        st2.derivRecords =
          st.derivRecords ++ [(c + 1, rid, d.R_hex, d.message_hash_hex)]) ∧
    (∀ evs e, hsmCounterVal (runHsm kdf rser hsmInit evs) ≤
      hsmCounterVal (runHsm kdf rser hsmInit (evs ++ [e]))) ∧
    (∀ evs, (deriveObservations kdf rser hsmInit evs).Pairwise (· < ·)) := by
  refine ⟨?_, ?_, ?_⟩
  · intro st rid msg d st2 h
    obtain ⟨c, _, hcnt, hdc, hcnt2, _, _, hrec⟩ :=
      derive_nonce_inversion kdf rser st rid msg d st2 h
    exact ⟨c, hcnt, hdc, hcnt2, hrec⟩
  · intro evs e
    have hinv : HsmInv (runHsm kdf rser hsmInit evs) :=
      runHsm_inv kdf rser evs hsmInit (fun _ => rfl)
    show hsmCounterVal (runHsm kdf rser hsmInit evs) ≤
      hsmCounterVal ((evs ++ [e]).foldl (hsmStep kdf rser) hsmInit)
    rw [List.foldl_append, List.foldl_cons, List.foldl_nil]
    exact hsmStep_counter_mono kdf rser _ e hinv
  · intro evs
    exact deriveObservations_pairwise kdf rser evs hsmInit (fun _ => rfl)

/-- Witness for C7: a concrete derivation from a freshly initialized
token (counter 0 becomes 1), and the trace components on an
init-derive-derive trace. -/
theorem nonce_counter_strictly_increasing_witness :
    (∃ c, ({ seed := true, counter := some 0, nonceObjs := [],
              derivRecords := [] } : HsmState).counter = some c ∧
        ({ counter := 1, k := 1, R_hex := "R", request_id := "r1",
            message_hash_hex := "" } : NonceDerivationRec).counter = c + 1 ∧
        ({ seed := true, counter := some 1, nonceObjs := [],
            derivRecords := [(1, "r1", "R", "")] } : HsmState).counter = some (c + 1) ∧
        ({ seed := true, counter := some 1, nonceObjs := [],
            derivRecords := [(1, "r1", "R", "")] } : HsmState).derivRecords =
          ({ seed := true, counter := some 0, nonceObjs := [],
              derivRecords := [] } : HsmState).derivRecords ++
            [(c + 1, "r1",
              ({ counter := 1, k := 1, R_hex := "R", request_id := "r1",
                  message_hash_hex := "" } : NonceDerivationRec).R_hex,
              ({ counter := 1, k := 1, R_hex := "R", request_id := "r1",
                  message_hash_hex := "" } : NonceDerivationRec).message_hash_hex)]) ∧
    (deriveObservations (fun _ _ _ => 1) (fun _ => "R") hsmInit
      [HsmEvent.initDeriv, HsmEvent.derive "r1" [], HsmEvent.derive "r2" []]).Pairwise
        (· < ·) :=
  ⟨(nonce_counter_strictly_increasing (fun _ _ _ => 1) (fun _ => "R")).1
      { seed := true, counter := some 0, nonceObjs := [], derivRecords := [] }
      "r1" []
      { counter := 1, k := 1, R_hex := "R", request_id := "r1",
          message_hash_hex := "" }
      { seed := true, counter := some 1, nonceObjs := [],
          derivRecords := [(1, "r1", "R", "")] }
      (by decide),
    (nonce_counter_strictly_increasing (fun _ _ _ => 1) (fun _ => "R")).2.2
      [HsmEvent.initDeriv, HsmEvent.derive "r1" [], HsmEvent.derive "r2" []]⟩

/-! ## C3 — the persisted signer session contains the nonce k -/

/-- C3 (code bug).  The claim — and the spec, explicitly — require that
the persisted signer-session document never contain the nonce `k`.  But
`SigningRound.to_dict` serializes `my_nonce_k` as `format(k, 'x')`
whenever it is present, and `sign-approve` writes `signer.to_json()` to
`signer_<request_id>.json` right after opening the session with the
derived nonce, before any wipe: the document written to disk carries the
nonce.  First conjunct: the concrete approve flow at node `"node1"` with
derived nonce `k = 3` persists the field `my_nonce_k = "3"`; second
conjunct: for every session holding a nonce, the serialized form exposes
its hex rendering. -/
theorem signer_session_persists_nonce :
    ((approvePersistedSession (q := 5) (fun p : ZMod 5 => scalarHex p)
        (fun _ => 0) "node1" 2 0 "tx_1" [1, 2] 3 "02ab").map
          (fun d2 => d2.my_nonce_k) = some (some "3")) ∧
    (∀ (q : ℕ) (Pt : Type) (ser : Pt → String) (rid : String) (mh : List ℕ)
        (nc : List (String × Pt)) (ps : List (String × ZMod q)) (k : ZMod q),
      (SigningRound.to_dict ser
        { request_id := rid, message_hash := mh, my_nonce_k := some k,
          nonce_commitments := nc, partial_signatures := ps }).my_nonce_k =
        some (String.mk (natToHexMin k.val))) := by
  constructor
  · decide
  · intro q Pt ser rid mh nc ps k
    rfl

/-! ## C4 — `compute_partial_signature` wipes the nonce -/

/-- C4 (confirmed).  Whenever `compute_partial_signature` returns
successfully, the session stored for that request in the post-state
signer holds no nonce: `my_nonce_k` was overwritten with `None` before
the call returned. -/
theorem compute_partial_signature_wipes_nonce {q : ℕ} {Pt : Type}
    [AddCommGroup Pt] [Module (ZMod q) Pt] (ser : Pt → String)
    (Hash : String → List ℕ → ZMod q) (signer : ThresholdSigner q Pt)
    (request_id : String) (participants : List String) (s : String)
    (signer2 : ThresholdSigner q Pt)
    (h : compute_partial_signature ser Hash signer request_id participants =
      some (s, signer2)) :
    ∃ sess2, alookup signer2.sessions request_id = some sess2 ∧
      sess2.my_nonce_k = none := by
  rw [compute_partial_signature] at h
  split at h
  · exact Option.noConfusion h
  · split at h
    · exact Option.noConfusion h
    · split at h
      · exact Option.noConfusion h
      · dsimp only at h
        split at h
        · have h2 := Option.some.inj h
          rw [Prod.mk.injEq] at h2
          obtain ⟨_, hsg⟩ := h2
          subst hsg
          exact ⟨_, alookup_dictInsert_self _ _ _, rfl⟩
        · exact Option.noConfusion h

/-- Witness for C4: a concrete single-participant session over `ZMod 5`
in which the partial succeeds and the stored session's nonce is gone. -/
theorem compute_partial_signature_wipes_nonce_witness :
    ∃ sess2,
      alookup
        ({ node_id := "node1", my_index := 1, my_share := 2, group_pubkey := 0,
            sessions := [("tx",
              { request_id := "tx", message_hash := [], my_nonce_k := none,
                nonce_commitments := [("node1", 1)],
                partial_signatures := [("node1", 3)] })] } :
          ThresholdSigner 5 (ZMod 5)).sessions "tx" = some sess2 ∧
      sess2.my_nonce_k = none :=
  compute_partial_signature_wipes_nonce (q := 5) (fun _ : ZMod 5 => "P")
    (fun _ _ => 0)
    ({ node_id := "node1", my_index := 1, my_share := 2, group_pubkey := 0,
        sessions := [("tx",
          { request_id := "tx", message_hash := [], my_nonce_k := some 3,
            nonce_commitments := [("node1", 1)], partial_signatures := [] })] } :
      ThresholdSigner 5 (ZMod 5))
    "tx" ["node1"] (scalarHex (3 : ZMod 5))
    ({ node_id := "node1", my_index := 1, my_share := 2, group_pubkey := 0,
        sessions := [("tx",
          { request_id := "tx", message_hash := [], my_nonce_k := none,
            nonce_commitments := [("node1", 1)],
            partial_signatures := [("node1", 3)] })] } :
      ThresholdSigner 5 (ZMod 5))
    (by
      rw [compute_partial_signature]
      have hc : (if '0' ≤ '1' ∧ '1' ≤ '9' then some ('1'.toNat - '0'.toNat) else none)
          = some 1 := by decide
      norm_num [alookup, sumCommitments, List.foldl, lagrangeNum, lagrangeDen,
        List.mapM, List.mapM.loop, nodeIndex?, stripNode, parseDec?, parseDecAux,
        decDigitVal?, dictInsert, mod_inverse?, ZMod.val_one, hc,
        (by decide : (ZMod.val (1 : ZMod 5)).gcd 5 = 1)])

/-! ## C5 — `receive_share` stores only Feldman-verified shares -/

/-- C5 (confirmed).  `receive_share` returns true and stores the share
exactly when commitments from the sender exist and the Feldman equation
`share·G = Σ_k my_index^k · C_k` holds; on any failure (including an
unknown sender) it returns false and leaves the state unchanged; and it
preserves the invariant that every stored share passed Feldman
verification against the sender's commitments. -/
theorem receive_share_spec {q : ℕ} {Pt : Type} [AddCommGroup Pt]
    [Module (ZMod q) Pt] [DecidableEq Pt] (G : Pt) (st : DKGRound q Pt)
    (from_node : String) (share : ZMod q) :
    ((receive_share G st from_node share).1 = true ↔
      ∃ cs, alookup st.other_commitments from_node = some cs ∧
        share • G = feldmanRhs q st.my_index cs) ∧
    ((receive_share G st from_node share).1 = false →
      (receive_share G st from_node share).2 = st) ∧
    ((receive_share G st from_node share).1 = true →
      (receive_share G st from_node share).2 =
        { st with received_shares := dictInsert st.received_shares from_node share }) ∧
    ((∀ nid v, alookup st.received_shares nid = some v →
        ∃ cs, alookup st.other_commitments nid = some cs ∧
          v • G = feldmanRhs q st.my_index cs) →
      ∀ nid v,
        alookup (receive_share G st from_node share).2.received_shares nid = some v →
        ∃ cs,
          alookup (receive_share G st from_node share).2.other_commitments nid
            = some cs ∧
          v • G = feldmanRhs q st.my_index cs) := by
  cases hlk : alookup st.other_commitments from_node with
  | none =>
    have hres : receive_share G st from_node share = (false, st) := by
      simp only [receive_share, hlk]
    rw [hres]
    refine ⟨?_, fun _ => rfl, ?_, ?_⟩
    · constructor
      · intro habs; exact absurd habs (by simp)
      · rintro ⟨cs, hcs, _⟩
        exact Option.noConfusion hcs
    · intro habs; exact absurd habs (by simp)
    · intro hbase nid v hv
      exact hbase nid v hv
  | some cs =>
    by_cases heq : share • G = feldmanRhs q st.my_index cs
    · have hres : receive_share G st from_node share =
          (true,
            { st with
                received_shares := dictInsert st.received_shares from_node share }) := by
        rw [receive_share, hlk]
        show (if ¬ share • G = feldmanRhs q st.my_index cs then (false, st)
            else (true,
              { st with
                  received_shares :=
                    dictInsert st.received_shares from_node share })) = _
        rw [if_neg (fun hne => hne heq)]
      rw [hres]
      refine ⟨?_, ?_, fun _ => rfl, ?_⟩
      · exact ⟨fun _ => ⟨cs, rfl, heq⟩, fun _ => rfl⟩
      · intro habs; exact absurd habs (by simp)
      · intro hbase nid v hv
        by_cases hnid : nid = from_node
        · subst hnid
          rw [alookup_dictInsert_self] at hv
          exact ⟨cs, hlk, (Option.some.inj hv) ▸ heq⟩
        · rw [alookup_dictInsert_ne _ _ _ _ hnid] at hv
          exact hbase nid v hv
    · have hres : receive_share G st from_node share = (false, st) := by
        rw [receive_share, hlk]
        show (if ¬ share • G = feldmanRhs q st.my_index cs then (false, st)
            else (true,
              { st with
                  received_shares :=
                    dictInsert st.received_shares from_node share })) = _
        rw [if_pos (fun habs => heq habs)]
      rw [hres]
      refine ⟨?_, fun _ => rfl, ?_, ?_⟩
      · constructor
        · intro habs; exact absurd habs (by simp)
        · rintro ⟨cs2, hcs2, heq2⟩
          rw [← Option.some.inj hcs2] at heq2
          exact absurd heq2 heq
      · intro habs; exact absurd habs (by simp)
      · intro hbase nid v hv
        exact hbase nid v hv

/-- Witness for C5: over `ZMod 5` with `G = 1`, commitments `[2, 3]`
from `"node2"` and own index 1, the honest share 0 verifies
(`0·G = 2 + 3 = 0 mod 5`), is stored, and the stored map still satisfies
the verification invariant. -/
theorem receive_share_spec_witness :
    ∃ cs,
      alookup
        (receive_share (q := 5) (1 : ZMod 5)
          { round_id := "r", node_id := "node1", my_index := 1, threshold := 2,
            total_nodes := 3, my_coefficients := none, my_commitments := none,
            shares_for_others := [], received_shares := [],
            other_commitments := [("node2", [2, 3])] }
          "node2" 0).2.other_commitments "node2" = some cs ∧
      (0 : ZMod 5) • (1 : ZMod 5) = feldmanRhs 5 1 cs :=
  (receive_share_spec (q := 5) (1 : ZMod 5)
    { round_id := "r", node_id := "node1", my_index := 1, threshold := 2,
      total_nodes := 3, my_coefficients := none, my_commitments := none,
      shares_for_others := [], received_shares := [],
      other_commitments := [("node2", [2, 3])] }
    "node2" 0).2.2.2
    (fun nid v hv => absurd hv (by simp [alookup]))
    "node2" 0 (by decide)

/-! ## C6 — `combine_signatures` sums all partials and never reports
`MissingPartial` -/

theorem sumCommitments_covered {Pt : Type} [AddCommGroup Pt]
    (ncs : List (String × Pt)) (Rmap : String → Pt) :
    ∀ (parts : List String) (acc : Pt),
      (∀ nid ∈ parts, alookup ncs nid = some (Rmap nid)) →
      parts.foldl
        (fun acc nid =>
          match acc, alookup ncs nid with
          | some R, some Rj => some (R + Rj)
          | _, _ => none)
        (some acc) = some (acc + (parts.map Rmap).sum) := by
  intro parts
  induction parts with
  | nil => intro acc _; simp
  | cons nid rest ih =>
    intro acc hcov
    rw [List.foldl_cons, hcov nid (List.mem_cons_self nid rest)]
    rw [ih (acc + Rmap nid) (fun n hn => hcov n (List.mem_cons_of_mem _ hn))]
    rw [List.map_cons, List.sum_cons, add_assoc]

theorem sumCommitments_fold_none {Pt : Type} [AddCommGroup Pt]
    (ncs : List (String × Pt)) :
    ∀ (parts : List String),
      parts.foldl
        (fun acc nid =>
          match acc, alookup ncs nid with
          | some R, some Rj => some (R + Rj)
          | _, _ => none)
        none = none := by
  intro parts
  induction parts with
  | nil => rfl
  | cons nid rest ih => rw [List.foldl_cons]; exact ih

theorem sumCommitments_missing {Pt : Type} [AddCommGroup Pt]
    (ncs : List (String × Pt)) :
    ∀ (parts : List String) (acc : Pt), (∃ nid ∈ parts, alookup ncs nid = none) →
      parts.foldl
        (fun acc nid =>
          match acc, alookup ncs nid with
          | some R, some Rj => some (R + Rj)
          | _, _ => none)
        (some acc) = none := by
  intro parts
  induction parts with
  | nil =>
    rintro acc ⟨nid, hmem, _⟩
    exact absurd hmem (by simp)
  | cons n2 rest ih =>
    rintro acc ⟨nid, hmem, hnone⟩
    rw [List.foldl_cons]
    by_cases hn : alookup ncs n2 = none
    · rw [hn]
      exact sumCommitments_fold_none ncs rest
    · cases hlk : alookup ncs n2 with
      | none => exact absurd hlk hn
      | some R =>
        rcases List.mem_cons.mp hmem with hthis | hrest
        · subst hthis
          exact absurd hlk (by rw [hnone]; exact fun habs => Option.noConfusion habs)
        · exact ih _ ⟨nid, hrest, hnone⟩

/-- C6 (corrected).  `combine_signatures` returns
`R = Σ_{j ∈ participants} R_j` over exactly the participant set, but the
combined scalar is `sum(partials.values()) mod n` over every entry of the
partials dict whatever its keys; the only failure is a `KeyError` on a
participant with no nonce commitment — a participant missing from the
partials map causes no `MissingPartial` error (the function does not
consult the participant list for the scalar sum at all). -/
theorem combine_signatures_spec {q : ℕ} {Pt : Type} [AddCommGroup Pt]
    (ser : Pt → String) (partials : List (String × ZMod q))
    (ncs : List (String × Pt)) (parts : List String) :
    (∀ Rmap : String → Pt, (∀ nid ∈ parts, alookup ncs nid = some (Rmap nid)) →
      combine_signatures ser partials ncs parts =
        some (ser ((parts.map Rmap).sum),
          scalarHex ((partials.map Prod.snd).sum))) ∧
    ((∃ nid ∈ parts, alookup ncs nid = none) →
      combine_signatures ser partials ncs parts = none) := by
  constructor
  · intro Rmap hcov
    rw [combine_signatures]
    have := sumCommitments_covered ncs Rmap parts 0 hcov
    rw [sumCommitments, this, zero_add]
  · rintro ⟨nid, hmem, hnone⟩
    rw [combine_signatures]
    have := sumCommitments_missing ncs parts 0 ⟨nid, hmem, hnone⟩
    rw [sumCommitments, this]

/-- C6 counterexample: with participant set `["node1"]`, a commitment
for `node1` and a partials dict containing only an entry for `node2`,
the claim requires a `MissingPartial` failure and
`s = Σ_{j ∈ S} s_j`; the code instead succeeds and returns `node2`'s
value 3 as the combined scalar. -/
theorem combine_signatures_no_missing_check :
    combine_signatures (q := 5) (fun p : ZMod 5 => scalarHex p)
      [("node2", 3)] [("node1", 2)] ["node1"]
      = some (scalarHex (2 : ZMod 5), scalarHex (3 : ZMod 5)) := by
  decide

/-- Witness for the corrected C6 theorem at a concrete covered input. -/
theorem combine_signatures_spec_witness :
    combine_signatures (q := 5) (fun p : ZMod 5 => scalarHex p)
      [("node1", 4)] [("node1", 2)] ["node1"] =
      some (scalarHex ((["node1"].map (fun _ => (2 : ZMod 5))).sum),
        scalarHex (([("node1", (4 : ZMod 5))].map Prod.snd).sum)) :=
  (combine_signatures_spec (fun p => scalarHex p) [("node1", 4)]
    [("node1", 2)] ["node1"]).1 (fun _ => 2) (by decide)

/-! ## C2 — threshold correctness

Infrastructure: dict-fold, parse/format and list/Finset bridging lemmas,
the polynomial reading of the DKG, and the evaluation at zero of the
Lagrange coefficients computed by `compute_partial_signature`.
-/

theorem dictInsert_dictInsert {β : Type} (l : List (String × β)) (kk : String)
    (v v2 : β) : dictInsert (dictInsert l kk v) kk v2 = dictInsert l kk v2 := by
  induction l with
  | nil => simp [dictInsert]
  | cons kv rest ih =>
    rw [dictInsert]
    by_cases hk : kv.1 = kk
    · rw [if_pos hk, dictInsert, if_pos rfl, dictInsert, if_pos hk]
    · rw [if_neg hk, dictInsert, if_neg hk, dictInsert, if_neg hk, ih]

theorem dictInsert_of_lookup_eq {β : Type} (l : List (String × β)) (kk : String)
    (v : β) (h : alookup l kk = some v) : dictInsert l kk v = l := by
  induction l with
  | nil => exact Option.noConfusion h
  | cons kv rest ih =>
    rw [alookup] at h
    rw [dictInsert]
    by_cases hk : kv.1 = kk
    · rw [if_pos hk]
      rw [if_pos hk] at h
      obtain ⟨a, b⟩ := kv
      have ha : a = kk := hk
      have hb : b = v := Option.some.inj h
      rw [ha, hb]
    · rw [if_neg hk]
      rw [if_neg hk] at h
      rw [ih h]

theorem list_toFinset_map {α β : Type} [DecidableEq α] [DecidableEq β]
    (l : List α) (f : α → β) : (l.map f).toFinset = l.toFinset.image f := by
  ext b
  simp [List.mem_toFinset, Finset.mem_image, List.mem_map]

theorem scalarHex_parse {q : ℕ} (z : ZMod q) (h : ZMod.val z < 16 ^ 64) :
    parseHexList? (scalarHex z).data = some (ZMod.val z) := by
  rw [scalarHex]
  have hdata : (String.mk (natToHexW 64 (ZMod.val z))).data = natToHexW 64 (ZMod.val z) :=
    rfl
  rw [hdata]
  exact parseHexList_natToHexW 64 (ZMod.val z) (by norm_num) h

theorem smul_list_sum {q : ℕ} {Pt : Type} [AddCommGroup Pt] [Module (ZMod q) Pt]
    (G : Pt) (l : List (ZMod q)) : (l.map (fun z => z • G)).sum = l.sum • G := by
  induction l with
  | nil => simp
  | cons a rest ih => simp [ih, add_smul]

theorem mapM_nodeIndex (S : List String) (I : String → ℕ)
    (hI : ∀ nid ∈ S, nodeIndex? nid = some (I nid)) :
    S.mapM nodeIndex? = some (S.map I) := by
  induction S with
  | nil => rfl
  | cons nid rest ih =>
    rw [List.mapM_cons, hI nid (List.mem_cons_self nid rest),
      ih (fun n hn => hI n (List.mem_cons_of_mem _ hn))]
    rfl

theorem alookup_fold_insert_not_mem {β : Type} (g : String → β) :
    ∀ (L : List String) (m0 : List (String × β)) (j : String), j ∉ L →
      alookup (L.foldl (fun m n => dictInsert m n (g n)) m0) j = alookup m0 j := by
  intro L
  induction L with
  | nil => intro m0 j _; rfl
  | cons n rest ih =>
    intro m0 j hj
    rw [List.foldl_cons, ih _ j (fun hr => hj (List.mem_cons_of_mem _ hr)),
      alookup_dictInsert_ne _ _ _ _
        (fun he => hj (by rw [he]; exact List.mem_cons_self n rest))]

theorem alookup_fold_insert_mem {β : Type} (g : String → β) :
    ∀ (L : List String) (m0 : List (String × β)) (j : String), j ∈ L →
      alookup (L.foldl (fun m n => dictInsert m n (g n)) m0) j = some (g j) := by
  intro L
  induction L with
  | nil =>
    intro m0 j hj
    exact absurd hj (by simp)
  | cons n rest ih =>
    intro m0 j hj
    rw [List.foldl_cons]
    by_cases hjr : j ∈ rest
    · exact ih _ j hjr
    · have hjn : j = n := by
        rcases List.mem_cons.mp hj with h | h
        · exact h
        · exact absurd h hjr
      subst hjn
      rw [alookup_fold_insert_not_mem g rest _ j hjr, alookup_dictInsert_self]

theorem alookup_map_pair {β : Type} (g : String → β) :
    ∀ (S : List String) (j : String), j ∈ S →
      alookup (S.map fun n => (n, g n)) j = some (g j) := by
  intro S
  induction S with
  | nil => intro j hj; exact absurd hj (by simp)
  | cons n rest ih =>
    intro j hj
    rw [List.map_cons, alookup]
    by_cases hjn : n = j
    · subst hjn; rw [if_pos rfl]
    · rw [if_neg hjn]
      rcases List.mem_cons.mp hj with h | h
      · exact absurd h.symm hjn
      · exact ih j h

theorem receive_fold {q : ℕ} {Pt : Type} (deser : String → Pt) (req : String)
    (f : String → String) :
    ∀ (L : List String) (sg : ThresholdSigner q Pt) (sess : SigningRound q Pt),
      alookup sg.sessions req = some sess →
      L.foldl
        (fun acc n =>
          acc.bind fun s2 => receive_nonce_commitment deser s2 req n (f n))
        (some sg) =
      some { sg with
        sessions := dictInsert sg.sessions req
          { sess with
              nonce_commitments :=
                L.foldl (fun m n => dictInsert m n (deser (f n)))
                  sess.nonce_commitments } } := by
  intro L
  induction L with
  | nil =>
    intro sg sess hsess
    rw [List.foldl_nil, List.foldl_nil]
    have : ({ sess with nonce_commitments := sess.nonce_commitments } :
        SigningRound q Pt) = sess := rfl
    rw [this, dictInsert_of_lookup_eq _ _ _ hsess]
  | cons n rest ih =>
    intro sg sess hsess
    rw [List.foldl_cons, Option.some_bind, receive_nonce_commitment, hsess]
    rw [ih _ { sess with
          nonce_commitments := dictInsert sess.nonce_commitments n (deser (f n)) }
        (alookup_dictInsert_self _ _ _)]
    rw [List.foldl_cons]
    congr 1
    rw [dictInsert_dictInsert]

theorem foldl_guard_prod_erase {F : Type} [CommRing F] (g : ℕ → F) (i : ℕ) :
    ∀ (L : List ℕ), L.Nodup → ∀ (a : F),
      L.foldl (fun acc j => if j ≠ i then acc * g j else acc) a =
        a * ∏ j ∈ L.toFinset.erase i, g j := by
  intro L
  induction L with
  | nil => intro _ a; simp
  | cons n rest ih =>
    intro hnd a
    obtain ⟨hn, hrest⟩ := List.nodup_cons.mp hnd
    rw [List.foldl_cons, List.toFinset_cons]
    by_cases hni : n = i
    · subst hni
      rw [if_neg (fun hne => hne rfl)]
      have hnoti : n ∉ rest.toFinset := fun habs => hn (List.mem_toFinset.mp habs)
      rw [Finset.erase_insert hnoti, ih hrest a,
        Finset.erase_eq_of_not_mem hnoti]
    · rw [if_pos hni]
      rw [Finset.erase_insert_of_ne hni, ih hrest (a * g n)]
      have hnoti : n ∉ rest.toFinset.erase i := fun habs =>
        hn (List.mem_toFinset.mp (Finset.mem_of_mem_erase habs))
      rw [Finset.prod_insert hnoti, mul_assoc]

theorem evalShareFrom_eq {q : ℕ} (idx : ℕ) :
    ∀ (c : List (ZMod q)) (kpow : ℕ) (acc : ZMod q),
      evalShareFrom idx c kpow acc =
        acc + ((idx : ZMod q)) ^ kpow * (listPoly c).eval (idx : ZMod q) := by
  intro c
  induction c with
  | nil => intro kpow acc; simp [evalShareFrom, listPoly]
  | cons a rest ih =>
    intro kpow acc
    rw [evalShareFrom, ih (kpow + 1) (acc + a * (idx : ZMod q) ^ kpow)]
    simp only [listPoly, Polynomial.eval_add, Polynomial.eval_C, Polynomial.eval_mul,
      Polynomial.eval_X]
    ring

theorem evalShareAcc_eq {q : ℕ} (c : List (ZMod q)) (idx : ℕ) :
    evalShareAcc c idx = (listPoly c).eval (idx : ZMod q) := by
  rw [evalShareAcc, evalShareFrom_eq]
  simp

theorem listPoly_eval_zero {q : ℕ} (c : List (ZMod q)) :
    (listPoly c).eval 0 = c.headD 0 := by
  cases c with
  | nil => simp [listPoly]
  | cons a rest => simp [listPoly]

theorem listPoly_degree_lt {R : Type} [Semiring R] [Nontrivial R] (c : List R) :
    (listPoly c).degree < (c.length : WithBot ℕ) := by
  induction c with
  | nil =>
    rw [listPoly, Polynomial.degree_zero]
    exact WithBot.bot_lt_coe _
  | cons a rest ih =>
    rw [listPoly]
    refine lt_of_le_of_lt (Polynomial.degree_add_le _ _) (max_lt ?_ ?_)
    · refine lt_of_le_of_lt Polynomial.degree_C_le ?_
      rw [List.length_cons]
      exact_mod_cast Nat.succ_pos rest.length
    · refine lt_of_le_of_lt (Polynomial.degree_mul_le _ _) ?_
      rw [Polynomial.degree_X, List.length_cons]
      cases hdeg : (listPoly rest).degree with
      | bot => rw [WithBot.add_bot]; exact WithBot.bot_lt_coe _
      | coe d =>
        have hd : d < rest.length := by
          have h2 := ih
          rw [Nat.cast_withBot, hdeg] at h2
          exact WithBot.coe_lt_coe.mp h2
        have h4 : 1 + d < rest.length + 1 := by omega
        rw [Nat.cast_withBot, ← WithBot.coe_one, ← WithBot.coe_add]
        exact WithBot.coe_lt_coe.mpr h4

theorem mod_inverse_of_ne_zero {q : ℕ} [Fact (Nat.Prime q)] (a : ZMod q)
    (h : a ≠ 0) : mod_inverse? a = some a⁻¹ := by
  haveI : NeZero q := ⟨(Fact.out : Nat.Prime q).ne_zero⟩
  rw [mod_inverse?, if_pos]
  have hv : ZMod.val a ≠ 0 := fun habs => h ((ZMod.val_eq_zero a).mp habs)
  have hlt : ZMod.val a < q := ZMod.val_lt a
  have hnd : ¬ q ∣ ZMod.val a := fun hdvd =>
    hv (Nat.eq_zero_of_dvd_of_lt hdvd hlt)
  have := (Nat.Prime.coprime_iff_not_dvd (Fact.out : Nat.Prime q)).mpr hnd
  rw [Nat.coprime_comm] at this
  exact this

theorem mapM_eq_some_map {α β : Type} (f : α → Option β) (g : α → β) :
    ∀ (l : List α), (∀ x ∈ l, f x = some (g x)) → l.mapM f = some (l.map g) := by
  intro l
  induction l with
  | nil => intro _; rfl
  | cons a rest ih =>
    intro h
    rw [List.mapM_cons, h a (List.mem_cons_self a rest),
      ih (fun x hx => h x (List.mem_cons_of_mem _ hx))]
    rfl

theorem list_sum_map_add {α M : Type} [AddCommMonoid M] (l : List α) (f g : α → M) :
    (l.map fun x => f x + g x).sum = (l.map f).sum + (l.map g).sum := by
  induction l with
  | nil => simp
  | cons a rest ih =>
    simp only [List.map_cons, List.sum_cons, ih]
    abel

theorem withbot_nat_le (a b : ℕ) (h : a ≤ b) :
    (a : WithBot ℕ) ≤ (b : WithBot ℕ) := by
  rw [Nat.cast_withBot, Nat.cast_withBot]
  exact WithBot.coe_le_coe.mpr h

theorem lagrangeNum_prod {q : ℕ} (i : ℕ) (L : List ℕ) (hnd : L.Nodup) :
    lagrangeNum q i L = ∏ j ∈ L.toFinset.erase i, (-(j : ZMod q)) := by
  rw [lagrangeNum, foldl_guard_prod_erase (fun j => -(j : ZMod q)) i L hnd 1, one_mul]

theorem lagrangeDen_prod {q : ℕ} (i : ℕ) (L : List ℕ) (hnd : L.Nodup) :
    lagrangeDen q i L = ∏ j ∈ L.toFinset.erase i, ((i : ZMod q) - (j : ZMod q)) := by
  rw [lagrangeDen,
    foldl_guard_prod_erase (fun j => (i : ZMod q) - (j : ZMod q)) i L hnd 1, one_mul]

theorem lagrangeDen_ne_zero {q : ℕ} [Fact (Nat.Prime q)] (i : ℕ) (L : List ℕ)
    (hnd : L.Nodup) (hiL : i ∈ L)
    (hinj : Set.InjOn (fun n : ℕ => (n : ZMod q)) (L.toFinset : Set ℕ)) :
    lagrangeDen q i L ≠ 0 := by
  rw [lagrangeDen_prod i L hnd, Finset.prod_ne_zero_iff]
  intro j hj habs
  obtain ⟨hji, hjT⟩ := Finset.mem_erase.mp hj
  have hcast : (j : ZMod q) = (i : ZMod q) := (sub_eq_zero.mp habs).symm
  have hj2 : j ∈ (L.toFinset : Set ℕ) := Finset.mem_coe.mpr hjT
  have hi2 : i ∈ (L.toFinset : Set ℕ) := Finset.mem_coe.mpr (List.mem_toFinset.mpr hiL)
  exact hji (hinj hj2 hi2 hcast)

theorem degree_list_sum_lt {R : Type} [Semiring R] (D : ℕ) :
    ∀ (l : List (Polynomial R)), (∀ p ∈ l, p.degree < (D : WithBot ℕ)) →
      (l.sum).degree < (D : WithBot ℕ) := by
  intro l
  induction l with
  | nil =>
    intro _
    rw [List.sum_nil, Polynomial.degree_zero, Nat.cast_withBot]
    exact WithBot.bot_lt_coe _
  | cons p rest ih =>
    intro h
    rw [List.sum_cons]
    exact lt_of_le_of_lt (Polynomial.degree_add_le _ _)
      (max_lt (h p (List.mem_cons_self p rest))
        (ih (fun p2 hp2 => h p2 (List.mem_cons_of_mem _ hp2))))

theorem dkgFinalShare_eval {q : ℕ} (dealers : List (List (ZMod q))) (idx : ℕ) :
    dkgFinalShare dealers idx = ((dealers.map listPoly).sum).eval (idx : ZMod q) := by
  have h := map_list_sum (Polynomial.evalRingHom ((idx : ZMod q))) (dealers.map listPoly)
  simp only [Polynomial.coe_evalRingHom] at h
  rw [dkgFinalShare, h, List.map_map]
  apply congrArg List.sum
  apply List.map_congr_left
  intro c _
  rw [evalShareAcc_eq]
  rfl

theorem dkgGroupPk_eval {q : ℕ} {Pt : Type} [AddCommGroup Pt] [Module (ZMod q) Pt]
    (G : Pt) (dealers : List (List (ZMod q))) :
    dkgGroupPk G dealers = (((dealers.map listPoly).sum).eval 0) • G := by
  have h := map_list_sum (Polynomial.evalRingHom (0 : ZMod q)) (dealers.map listPoly)
  simp only [Polynomial.coe_evalRingHom] at h
  rw [dkgGroupPk, h, List.map_map]
  congr 1
  apply congrArg List.sum
  apply List.map_congr_left
  intro c _
  rw [← listPoly_eval_zero]
  rfl

theorem castInjOn_of_lt (q : ℕ) [NeZero q] (T : Finset ℕ) (hT : ∀ a ∈ T, a < q) :
    Set.InjOn (fun n : ℕ => (n : ZMod q)) (T : Set ℕ) := by
  intro a ha b hb hab
  have ha2 := ZMod.val_cast_of_lt (hT a (Finset.mem_coe.mp ha))
  have hb2 := ZMod.val_cast_of_lt (hT b (Finset.mem_coe.mp hb))
  have := congrArg ZMod.val hab
  simp only at this
  rw [ha2, hb2] at this
  exact this

theorem lagrange_sum_eval_zero {q : ℕ} [Fact (Nat.Prime q)] (T : Finset ℕ)
    (hvs : Set.InjOn (fun n : ℕ => (n : ZMod q)) (T : Set ℕ)) (F : Polynomial (ZMod q))
    (hdeg : F.degree < (T.card : WithBot ℕ)) :
    ∑ i ∈ T, F.eval (i : ZMod q) *
      ((∏ j ∈ T.erase i, (-(j : ZMod q))) *
        (∏ j ∈ T.erase i, ((i : ZMod q) - (j : ZMod q)))⁻¹) = F.eval 0 := by
  have h := Lagrange.eq_interpolate hvs hdeg
  conv_rhs => rw [h]
  rw [Lagrange.interpolate_apply, Polynomial.eval_finset_sum]
  apply Finset.sum_congr rfl
  intro i hi
  rw [Polynomial.eval_mul, Polynomial.eval_C]
  congr 1
  simp only [Lagrange.basis]
  rw [Polynomial.eval_prod, ← Finset.prod_inv_distrib, ← Finset.prod_mul_distrib]
  apply Finset.prod_congr rfl
  intro j hj
  simp only [Lagrange.basisDivisor, Polynomial.eval_mul, Polynomial.eval_C,
    Polynomial.eval_sub, Polynomial.eval_X]
  ring

theorem compute_partial_signature_eq {q : ℕ} {Pt : Type} [AddCommGroup Pt]
    [Module (ZMod q) Pt] (ser : Pt → String) (Hash : String → List ℕ → ZMod q)
    (sg : ThresholdSigner q Pt) (req : String) (S : List String)
    (sess : SigningRound q Pt) (Rmap : String → Pt) (I : String → ℕ)
    (kk dinv : ZMod q)
    (hsess : alookup sg.sessions req = some sess)
    (hcov : ∀ n ∈ S, alookup sess.nonce_commitments n = some (Rmap n))
    (hI : ∀ n ∈ S, nodeIndex? n = some (I n))
    (hk : sess.my_nonce_k = some kk)
    (hdinv : mod_inverse? (lagrangeDen q sg.my_index (S.map I)) = some dinv) :
    ∃ sg2, compute_partial_signature ser Hash sg req S =
      some (scalarHex (kk +
        Hash (ser ((S.map Rmap).sum) ++ ser sg.group_pubkey) sess.message_hash *
          (lagrangeNum q sg.my_index (S.map I) * dinv) * sg.my_share), sg2) := by
  have hsum : sumCommitments sess.nonce_commitments S = some ((S.map Rmap).sum) := by
    rw [sumCommitments, sumCommitments_covered sess.nonce_commitments Rmap S 0 hcov,
      zero_add]
  have hmapm : S.mapM nodeIndex? = some (S.map I) := mapM_nodeIndex S I hI
  refine ⟨{ sg with
              sessions := dictInsert sg.sessions req
                { sess with
                    my_nonce_k := none,
                    partial_signatures := dictInsert sess.partial_signatures sg.node_id
                      (kk +
                        Hash (ser ((S.map Rmap).sum) ++ ser sg.group_pubkey)
                            sess.message_hash *
                          (lagrangeNum q sg.my_index (S.map I) * dinv) * sg.my_share) } },
    ?_⟩
  simp only [compute_partial_signature, hsess, hsum, hmapm, hk, hdinv]

theorem participantPartial_eq {q : ℕ} {Pt : Type} [Fact (Nat.Prime q)]
    [AddCommGroup Pt] [Module (ZMod q) Pt]
    (G : Pt) (ser : Pt → String) (deser : String → Pt)
    (Hash : String → List ℕ → ZMod q) (dealers : List (List (ZMod q)))
    (S : List String) (req : String) (msg : List ℕ) (k : String → ZMod q)
    (I : String → ℕ) (nid : String)
    (hds : ∀ P : Pt, deser (ser P) = P)
    (hI : ∀ n ∈ S, nodeIndex? n = some (I n))
    (hmem : nid ∈ S)
    (hden : lagrangeDen q (I nid) (S.map I) ≠ 0) :
    ∃ sg2, participantPartial G ser deser Hash dealers S req msg k nid =
      some (scalarHex (honestPartialScalar G ser Hash dealers S msg k I nid), sg2) := by
  have hInid := hI nid hmem
  have hdinv := mod_inverse_of_ne_zero (lagrangeDen q (I nid) (S.map I)) hden
  have hlk : alookup
      (create_nonce_commitment_from_k (q := q) deser
        { node_id := nid, my_index := I nid, my_share := dkgFinalShare dealers (I nid),
          group_pubkey := dkgGroupPk G dealers, sessions := [] } req msg (k nid)
        (ser (k nid • G))).sessions req =
      some { request_id := req, message_hash := msg, my_nonce_k := some (k nid),
             nonce_commitments := [(nid, deser (ser (k nid • G)))],
             partial_signatures := [] } :=
    alookup_dictInsert_self [] req _
  have hcov2 : ∀ n ∈ S,
      alookup (S.foldl (fun m n2 => dictInsert m n2 (deser (ser (k n2 • G))))
        [(nid, deser (ser (k nid • G)))]) n = some (k n • G) := by
    intro n hn
    rw [alookup_fold_insert_mem (fun n2 => deser (ser (k n2 • G))) S _ n hn, hds]
  obtain ⟨sg2, hcp⟩ := compute_partial_signature_eq ser Hash
    { node_id := nid, my_index := I nid, my_share := dkgFinalShare dealers (I nid),
      group_pubkey := dkgGroupPk G dealers,
      sessions := dictInsert
        [(req, { request_id := req, message_hash := msg, my_nonce_k := some (k nid),
                 nonce_commitments := [(nid, deser (ser (k nid • G)))],
                 partial_signatures := [] })] req
        { request_id := req, message_hash := msg, my_nonce_k := some (k nid),
          nonce_commitments :=
            S.foldl (fun m n2 => dictInsert m n2 (deser (ser (k n2 • G))))
              [(nid, deser (ser (k nid • G)))],
          partial_signatures := [] } } req S
    { request_id := req, message_hash := msg, my_nonce_k := some (k nid),
      nonce_commitments :=
        S.foldl (fun m n2 => dictInsert m n2 (deser (ser (k n2 • G))))
          [(nid, deser (ser (k nid • G)))],
      partial_signatures := [] } (fun n => k n • G) I (k nid) _
    (alookup_dictInsert_self _ _ _) hcov2 hI rfl hdinv
  refine ⟨sg2, ?_⟩
  simp only [participantPartial, hInid]
  rw [receive_fold deser req (fun n => ser (k n • G)) S _ _ hlk]
  exact hcp

theorem honest_total_scalar {q : ℕ} [Fact (Nat.Prime q)] {Pt : Type} [AddCommGroup Pt]
    [Module (ZMod q) Pt] (G : Pt) (ser : Pt → String)
    (Hash : String → List ℕ → ZMod q) (dealers : List (List (ZMod q)))
    (S : List String) (msg : List ℕ) (k : String → ZMod q) (I : String → ℕ)
    (hnd : (S.map I).Nodup)
    (hinj : Set.InjOn (fun n : ℕ => (n : ZMod q)) (((S.map I).toFinset : Finset ℕ) : Set ℕ))
    (hlen : ∀ c ∈ dealers, c.length ≤ S.length) :
    (S.map (honestPartialScalar G ser Hash dealers S msg k I)).sum =
      (S.map k).sum +
        honestChallenge G ser Hash dealers S msg k *
          ((dealers.map listPoly).sum).eval 0 := by
  have hsplit : (S.map (honestPartialScalar G ser Hash dealers S msg k I)).sum
      = (S.map k).sum + (S.map fun nid => honestChallenge G ser Hash dealers S msg k *
          ((lagrangeNum q (I nid) (S.map I) * (lagrangeDen q (I nid) (S.map I))⁻¹) *
            dkgFinalShare dealers (I nid))).sum := by
    rw [← list_sum_map_add]
    apply congrArg List.sum
    apply List.map_congr_left
    intro nid _
    rw [honestPartialScalar, mul_assoc]
  rw [hsplit, List.sum_map_mul_left]
  congr 1
  have hstep : (S.map fun nid =>
      (lagrangeNum q (I nid) (S.map I) * (lagrangeDen q (I nid) (S.map I))⁻¹) *
        dkgFinalShare dealers (I nid)).sum =
      ((S.map I).map fun j : ℕ => ((dealers.map listPoly).sum).eval (j : ZMod q) *
        ((∏ j2 ∈ (S.map I).toFinset.erase j, (-(j2 : ZMod q))) *
          (∏ j2 ∈ (S.map I).toFinset.erase j, ((j : ZMod q) - (j2 : ZMod q)))⁻¹)).sum := by
    rw [List.map_map]
    apply congrArg List.sum
    apply List.map_congr_left
    intro nid _
    simp only [Function.comp_apply]
    rw [lagrangeNum_prod _ _ hnd, lagrangeDen_prod _ _ hnd, dkgFinalShare_eval]
    ring
  rw [hstep, ← List.sum_toFinset _ hnd]
  have hcard : (S.map I).toFinset.card = S.length := by
    rw [List.toFinset_card_of_nodup hnd, List.length_map]
  have hdeg : ((dealers.map listPoly).sum).degree <
      (((S.map I).toFinset.card : ℕ) : WithBot ℕ) := by
    rw [hcard]
    apply degree_list_sum_lt
    intro p hp
    obtain ⟨c, hc, hpc⟩ := List.mem_map.mp hp
    subst hpc
    exact lt_of_lt_of_le (listPoly_degree_lt c) (withbot_nat_le _ _ (hlen c hc))
  rw [lagrange_sum_eval_zero _ hinj _ hdeg]

/-- C2 (confirmed).  Threshold correctness of the honest signing
pipeline: for every successful `(t, n)` DKG (each dealer a coefficient
list of length at most `t = |S|`) and every participant set `S` with
parseable, distinct indices (distinct also as field elements), running
every participant of `S` through the session setup, commitment intake
and `compute_partial_signature`, then parsing and combining the partial
hex strings with `combine_signatures`, produces `(R_hex, s_hex)` that
`verify_signature` accepts against the DKG group public key: the node's
own verification equation `s·G = R + e·P` holds. -/
theorem threshold_signing_correct {q : ℕ} [Fact (Nat.Prime q)] {Pt : Type}
    [AddCommGroup Pt] [Module (ZMod q) Pt] [DecidableEq Pt]
    (G : Pt) (ser : Pt → String) (deser : String → Pt)
    (Hash : String → List ℕ → ZMod q) (dealers : List (List (ZMod q)))
    (S : List String) (req : String) (msg : List ℕ) (k : String → ZMod q)
    (I : String → ℕ)
    (hq : q ≤ 16 ^ 64)
    (hds : ∀ P : Pt, deser (ser P) = P)
    (hI : ∀ n ∈ S, nodeIndex? n = some (I n))
    (hIz : ∀ n ∈ S, I n ≠ 0)
    (hnd : (S.map I).Nodup)
    (hinj : Set.InjOn (fun n : ℕ => (n : ZMod q)) (((S.map I).toFinset : Finset ℕ) : Set ℕ))
    (hlen : ∀ c ∈ dealers, c.length ≤ S.length) :
    ∃ R_hex s_hex,
      honestSignRun G ser deser Hash dealers S req msg k = some (R_hex, s_hex) ∧
      verify_signature G ser deser Hash R_hex s_hex (dkgGroupPk G dealers) msg =
        some true := by
  haveI : NeZero q := ⟨(Fact.out : Nat.Prime q).ne_zero⟩
  have hpp : ∀ nid ∈ S,
      ((participantPartial G ser deser Hash dealers S req msg k nid).bind fun p =>
        (parseHexList? p.1.data).map fun v => (nid, ((v : ℕ) : ZMod q))) =
      some (nid, honestPartialScalar G ser Hash dealers S msg k I nid) := by
    intro nid hmem
    have hden : lagrangeDen q (I nid) (S.map I) ≠ 0 :=
      lagrangeDen_ne_zero (I nid) (S.map I) hnd (List.mem_map_of_mem I hmem) hinj
    obtain ⟨sg2, hp⟩ := participantPartial_eq G ser deser Hash dealers S req msg k I nid
      hds hI hmem hden
    rw [hp, Option.some_bind]
    show (parseHexList?
        (scalarHex (honestPartialScalar G ser Hash dealers S msg k I nid)).data).map
      (fun v => (nid, ((v : ℕ) : ZMod q))) = _
    rw [scalarHex_parse _ (lt_of_lt_of_le (ZMod.val_lt _) hq), Option.map_some']
    rw [ZMod.natCast_rightInverse (honestPartialScalar G ser Hash dealers S msg k I nid)]
  have hmapm2 : (S.mapM fun nid =>
      (participantPartial G ser deser Hash dealers S req msg k nid).bind fun p =>
        (parseHexList? p.1.data).map fun v => (nid, ((v : ℕ) : ZMod q))) =
      some (S.map fun nid =>
        (nid, honestPartialScalar G ser Hash dealers S msg k I nid)) :=
    mapM_eq_some_map _ _ S hpp
  have hcov3 : ∀ n ∈ S, alookup (S.map fun n2 => (n2, deser (ser (k n2 • G)))) n
      = some (k n • G) := by
    intro n hn
    rw [alookup_map_pair (fun n2 => deser (ser (k n2 • G))) S n hn, hds]
  have hsumc : sumCommitments (S.map fun n2 => (n2, deser (ser (k n2 • G)))) S
      = some ((S.map fun n2 => k n2 • G).sum) := by
    rw [sumCommitments, sumCommitments_covered _ (fun n2 => k n2 • G) S 0 hcov3,
      zero_add]
  have hrun : honestSignRun G ser deser Hash dealers S req msg k =
      some (ser ((S.map fun n2 => k n2 • G).sum),
        scalarHex ((S.map (honestPartialScalar G ser Hash dealers S msg k I)).sum)) := by
    rw [honestSignRun, hmapm2]
    show combine_signatures ser _ _ S = _
    rw [combine_signatures, hsumc]
    show some (_, scalarHex (((S.map fun nid =>
      (nid, honestPartialScalar G ser Hash dealers S msg k I nid)).map Prod.snd).sum)) = _
    rw [List.map_map]
    rfl
  refine ⟨_, _, hrun, ?_⟩
  have hkey : (((S.map (honestPartialScalar G ser Hash dealers S msg k I)).sum)
        : ZMod q) • G =
      (S.map fun n2 => k n2 • G).sum +
        Hash (ser ((S.map fun n2 => k n2 • G).sum) ++ ser (dkgGroupPk G dealers)) msg •
          dkgGroupPk G dealers := by
    rw [honest_total_scalar G ser Hash dealers S msg k I hnd hinj hlen, add_smul,
      mul_smul]
    congr 1
    · rw [← smul_list_sum G (S.map k), List.map_map]
      rfl
    · simp only [honestChallenge]
      congr 1
      exact (dkgGroupPk_eval G dealers).symm
  rw [verify_signature, scalarHex_parse _ (lt_of_lt_of_le (ZMod.val_lt _) hq)]
  show some (decide _) = some true
  rw [hds, ← Nat.cast_smul_eq_nsmul (ZMod q),
    ZMod.natCast_rightInverse
      ((S.map (honestPartialScalar G ser Hash dealers S msg k I)).sum),
    decide_eq_true hkey]

/-- Witness for C2: a full honest run with two participants `node1`,
`node2` (indices 1, 2), two dealers with polynomials `1 + 2x` and
`3 + 4x` over `ZMod 5`, the group `ZMod 5` itself with generator `1`,
hex serialization and a constant challenge hash. -/
theorem threshold_signing_correct_witness :
    (∀ n ∈ (["node1", "node2"] : List String), nodeIndex? n = some (witI n)) ∧
    ∃ R_hex s_hex,
      honestSignRun witG witSer witDeser witHash witDealers ["node1", "node2"]
          "tx" [7] witK = some (R_hex, s_hex) ∧
      verify_signature witG witSer witDeser witHash R_hex s_hex
          (dkgGroupPk witG witDealers) [7] = some true := by
  constructor
  · decide
  · have hq5 : (5 : ℕ) ≤ 16 ^ 64 := by norm_num
    have hds5 : ∀ P : ZMod 5, witDeser (witSer P) = P := by decide
    have hI5 : ∀ n ∈ (["node1", "node2"] : List String),
        nodeIndex? n = some (witI n) := by decide
    have hIz5 : ∀ n ∈ (["node1", "node2"] : List String), witI n ≠ 0 := by decide
    have hnd5 : ((["node1", "node2"] : List String).map witI).Nodup := by decide
    have hlt5 : ∀ a ∈ ((["node1", "node2"] : List String).map witI).toFinset,
        a < 5 := by decide
    have hlen5 : ∀ c ∈ witDealers,
        c.length ≤ (["node1", "node2"] : List String).length := by decide
    haveI : Fact (Nat.Prime 5) := ⟨by norm_num⟩
    exact threshold_signing_correct witG witSer witDeser witHash witDealers
      ["node1", "node2"] "tx" [7] witK witI
      hq5 hds5 hI5 hIz5 hnd5 (castInjOn_of_lt 5 _ hlt5) hlen5

end MailboxMPC
